import Mathlib

/-!
# Fixed-point base-2 logarithm (`fixlog.c`)

A shallow embedding of the three `log2` overloads of `src/fixlog.c`:

* `log2_u16` : `uint16_t log2(uint16_t)`, result in Q4.12;
* `log2_u32` : `uint32_t log2(uint32_t)`, result in Q5.27;
* `log2_i32` : `int16_t log2(int32_t)`, result in Q6.10 with a sign.

Unsigned machine words are natural numbers reduced modulo `2 ^ w` at every
assignment; signed words are integers wrapped to the two's complement range.
The loop state is the pair `(x, y)` of the mantissa and the accumulator; the
functions `run_u16`, `run_u32` give the state after `n` iterations, so that
the source functions are the accumulators after `Q` iterations.
-/

set_option maxRecDepth 4000

namespace Fixlog

/-! ## Machine words -/

/-- Conversion of a value to `uint16_t`. -/
def toU16 (n : Nat) : Nat := n % 2 ^ 16

/-- Conversion of a value to `uint32_t`. -/
def toU32 (n : Nat) : Nat := n % 2 ^ 32

/-- Conversion of a value to `uint64_t`. -/
def toU64 (n : Nat) : Nat := n % 2 ^ 64

/-- Conversion of a value to `int16_t` (two's complement wrap). -/
def toI16 (z : Int) : Int := (z + 2 ^ 15) % 2 ^ 16 - 2 ^ 15

/-- Conversion of a value to `int32_t` (two's complement wrap). -/
def toI32 (z : Int) : Int := (z + 2 ^ 31) % 2 ^ 32 - 2 ^ 31

/-- The test `(int32_t) n < 0` for a 32-bit word `n`. -/
def negI32 (n : Nat) : Bool := decide (2 ^ 31 ≤ toU32 n)

/-- The test `(int64_t) n < 0` for a 64-bit word `n`. -/
def negI64 (n : Nat) : Bool := decide (2 ^ 63 ≤ toU64 n)

/-! ## `uint16_t log2(uint16_t x)` -/

/-- Phase 1 of the 16-bit function (lines 21-25): the binary-search bit scan. -/
def scan_u16 (x : Nat) : Nat :=
  let y := 0
  let y := if x &&& 0xFF00 ≠ 0 then 8 else y
  let y := if (x >>> y) &&& 0x00F0 ≠ 0 then toU16 (y + 4) else y
  let y := if (x >>> y) &&& 0x000C ≠ 0 then toU16 (y + 2) else y
  let y := if (x >>> y) &&& 0x0002 ≠ 0 then toU16 (y + 1) else y
  y

/-- The squared mantissa plus offset of line 34,
`xp = (uint32_t)(x) * (uint32_t)(x) + 0x4000`, as a 32-bit word. -/
def xp_u16 (x : Nat) : Nat := toU32 (toU32 x * toU32 x + 0x4000)

/-- One iteration of the fractional loop of the 16-bit function (lines 33-39),
on the pair `(x, y)`. -/
def step_u16 (s : Nat × Nat) : Nat × Nat :=
  let y := toU16 (s.2 <<< 1)
  let xp := toU32 (toU32 s.1 * toU32 s.1 + 0x4000)
  if negI32 xp then (toU16 (xp >>> 16), toU16 (y + 1)) else (toU16 (xp >>> 15), y)

/-- The state `(x, y)` of the 16-bit function after `n` iterations of its loop. -/
@[irreducible]
def run_u16 (n x : Nat) : Nat × Nat :=
  let y := scan_u16 x
  let x := toU16 (x <<< (15 - y))
  step_u16^[n] (x, y)

/-- The accumulator `y` of the 16-bit function after `n` iterations of its loop. -/
def acc_u16 (n x : Nat) : Nat := (run_u16 n x).2

/-- The function `uint16_t log2(uint16_t x)`: the accumulator after `Q = 12`
iterations. -/
def log2_u16 (x : Nat) : Nat := acc_u16 12 x

/-! ## `uint32_t log2(uint32_t x)` -/

/-- Phase 1 of the 32-bit functions (lines 62-67 and 103-107). -/
def scan_u32 (x : Nat) : Nat :=
  let y := 0
  let y := if x &&& 0xFFFF0000 ≠ 0 then 16 else y
  let y := if (x >>> y) &&& 0x0000FF00 ≠ 0 then toU32 (y + 8) else y
  let y := if (x >>> y) &&& 0x000000F0 ≠ 0 then toU32 (y + 4) else y
  let y := if (x >>> y) &&& 0x0000000C ≠ 0 then toU32 (y + 2) else y
  let y := if (x >>> y) &&& 0x00000002 ≠ 0 then toU32 (y + 1) else y
  y

/-- The squared mantissa plus offset of lines 76 and 116,
`xp = (uint64_t)(x) * (uint64_t)(x) + 0x40000000UL`, as a 64-bit word. -/
def xp_u32 (x : Nat) : Nat := toU64 (toU64 x * toU64 x + 0x40000000)

/-- One iteration of the fractional loop of the 32-bit functions (lines 75-81
and 115-121), on the pair `(x, y)`. -/
def step_u32 (s : Nat × Nat) : Nat × Nat :=
  let y := toU32 (s.2 <<< 1)
  let xp := toU64 (toU64 s.1 * toU64 s.1 + 0x40000000)
  if negI64 xp then (toU32 (xp >>> 32), toU32 (y + 1)) else (toU32 (xp >>> 31), y)

/-- The state `(x, y)` of the 32-bit functions after `n` iterations of the loop,
started from the magnitude `x`. -/
@[irreducible]
def run_u32 (n x : Nat) : Nat × Nat :=
  let y := scan_u32 x
  let x := toU32 (x <<< (31 - y))
  step_u32^[n] (x, y)

/-- The accumulator `y` of the 32-bit functions after `n` iterations of the loop. -/
def acc_u32 (n x : Nat) : Nat := (run_u32 n x).2

/-- The function `uint32_t log2(uint32_t x)`: the accumulator after `Q = 27`
iterations. -/
def log2_u32 (x : Nat) : Nat := acc_u32 27 x

/-! ## `int16_t log2(int32_t x)` -/

/-- The magnitude `xu = (x < 0 ? -x : x)` of line 99: negation in `int32_t`,
then conversion to `uint32_t`. At `x = -2 ^ 31` the negation overflows
`int32_t`, which the language leaves undefined; this definition takes the
two's complement wrap there, `abs_i32 (-2 ^ 31) = 2 ^ 31`, and
`abs_i32_strict` below leaves that input without a value. -/
def abs_i32 (x : Int) : Nat :=
  Int.toNat (toI32 (if x < 0 then -x else x) % 2 ^ 32)

/-- The function `int16_t log2(int32_t x)`, `Q = 10`: the magnitude goes
through the 32-bit scan and loop, `-y` is taken in `uint32_t` and the result
is converted to `int16_t`. -/
def log2_i32 (x : Int) : Int :=
  let y := acc_u32 10 (abs_i32 x)
  toI16 (if x < 0 then (toU32 (2 ^ 32 - y) : Nat) else y)

/-- Negation in `int32_t` as the language defines it: no value when the
result is not representable (signed overflow). -/
def neg_i32 (x : Int) : Option Int :=
  if -2 ^ 31 ≤ -x ∧ -x < 2 ^ 31 then some (-x) else none

/-- The magnitude `xu = (x < 0 ? -x : x)` of line 99 with the signed overflow
of `-x` left undefined: no value at `x = -2 ^ 31`. -/
def abs_i32_strict (x : Int) : Option Nat :=
  if x < 0 then (neg_i32 x).map (fun z => Int.toNat (z % 2 ^ 32))
  else some (Int.toNat (x % 2 ^ 32))

/-- The function `int16_t log2(int32_t x)` with the signed overflow of line 99
left undefined: the body of `log2_i32` on the magnitude, when there is one. -/
def log2_i32_strict (x : Int) : Option Int :=
  (abs_i32_strict x).map (fun xu =>
    let y := acc_u32 10 xu
    toI16 (if x < 0 then (toU32 (2 ^ 32 - y) : Nat) else y))

/-! ## Auxiliary definitions for the proofs -/

/-- One loop iteration without word truncation, for a mantissa scaled by
`R = 2 ^ (W - 1)`: the offset is `R / 2`, the sign test is `2 * R * R ≤ xp`. -/
def stepR (R : Nat) (s : Nat × Nat) : Nat × Nat :=
  let xp := s.1 * s.1 + R / 2
  if 2 * R * R ≤ xp then (xp / (2 * R), 2 * s.2 + 1) else (xp / R, 2 * s.2)

/-- Loop states ordered by accumulator first, mantissa second. -/
def stateLe (s t : Nat × Nat) : Prop := s.2 < t.2 ∨ (s.2 = t.2 ∧ s.1 ≤ t.1)

instance stateLe_decidable (s t : Nat × Nat) : Decidable (stateLe s t) := by
  unfold stateLe
  infer_instance

/-- Repeated squaring with `P` fractional bits, rounding down, dividing by two
whenever the matching bit of `Y` (read from bit `n - 1` down to bit `0`) is set. -/
def sqChain (P Y : Nat) : Nat → Nat → Nat
  | 0, a => a
  | n + 1, a => sqChain P Y n (a * a / 2 ^ (P + (Y / 2 ^ n) % 2))

/-! ## The bit scan finds the highest set bit -/

theorem and_mask_ne_zero (a b v : Nat) (hv : v < 2 ^ (a + b)) :
    v &&& ((2 ^ b - 1) <<< a) ≠ 0 ↔ 2 ^ a ≤ v := by
  constructor
  · intro h
    by_contra hlt
    push_neg at hlt
    apply h
    apply Nat.eq_of_testBit_eq
    intro i
    simp only [Nat.testBit_and, Nat.testBit_shiftLeft, Nat.zero_testBit]
    by_cases hi : i ≥ a
    · rw [Nat.testBit_lt_two_pow
        (lt_of_lt_of_le hlt (Nat.pow_le_pow_right (by norm_num) hi))]
      simp
    · simp [hi]
  · intro h hz
    obtain ⟨i, hi, hb⟩ := Nat.ge_two_pow_implies_high_bit_true h
    have hlt : i < a + b := by
      by_contra hge
      push_neg at hge
      have hf := Nat.testBit_lt_two_pow
        (lt_of_lt_of_le hv (Nat.pow_le_pow_right (by norm_num) hge))
      simp [hf] at hb
    have ht : (v &&& ((2 ^ b - 1) <<< a)).testBit i = true := by
      simp only [Nat.testBit_and, Nat.testBit_shiftLeft, Nat.testBit_two_pow_sub_one, hb]
      simp
      omega
    rw [hz] at ht
    simp at ht

/-- One test of the binary search: the window `[y, y + 2 * h)` holding the
highest set bit is halved. -/
theorem scan_step (h M x y : Nat) (hM : M = (2 ^ h - 1) <<< h)
    (hlo : 2 ^ y ≤ x) (hhi : x < 2 ^ (y + 2 * h)) :
    2 ^ (if (x >>> y) &&& M ≠ 0 then y + h else y) ≤ x ∧
      x < 2 ^ ((if (x >>> y) &&& M ≠ 0 then y + h else y) + h) := by
  have hv : x >>> y < 2 ^ (h + h) := by
    rw [Nat.shiftRight_eq_div_pow, Nat.div_lt_iff_lt_mul (Nat.two_pow_pos y), ← Nat.pow_add]
    have : h + h + y = y + 2 * h := by omega
    rw [this]
    exact hhi
  have key := and_mask_ne_zero h h (x >>> y) hv
  rw [← hM] at key
  by_cases hc : (x >>> y) &&& M ≠ 0
  · rw [if_pos hc]
    have h1 := key.mp hc
    rw [Nat.shiftRight_eq_div_pow, Nat.le_div_iff_mul_le (Nat.two_pow_pos y), ← Nat.pow_add] at h1
    refine ⟨by rwa [Nat.add_comm], ?_⟩
    have : y + h + h = y + 2 * h := by omega
    rw [this]
    exact hhi
  · rw [if_neg hc]
    refine ⟨hlo, ?_⟩
    have h1 : x >>> y < 2 ^ h := by
      by_contra hge
      push_neg at hge
      exact hc (key.mpr hge)
    rw [Nat.shiftRight_eq_div_pow, Nat.div_lt_iff_lt_mul (Nat.two_pow_pos y), ← Nat.pow_add] at h1
    rwa [Nat.add_comm]


theorem scan_u32_spec (x : Nat) (h0 : 0 < x) (h : x < 2 ^ 32) :
    2 ^ scan_u32 x ≤ x ∧ x < 2 ^ (scan_u32 x + 1) ∧ scan_u32 x ≤ 31 := by
  have s1 := scan_step 16 0xFFFF0000 x 0 (by decide) (by simpa using h0) (by simpa using h)
  simp only [Nat.shiftRight_zero, Nat.zero_add] at s1
  have e1 : scan_u32 x =
      (let y := if x &&& 0xFFFF0000 ≠ 0 then 16 else 0
      let y := if (x >>> y) &&& 0x0000FF00 ≠ 0 then toU32 (y + 8) else y
      let y := if (x >>> y) &&& 0x000000F0 ≠ 0 then toU32 (y + 4) else y
      let y := if (x >>> y) &&& 0x0000000C ≠ 0 then toU32 (y + 2) else y
      let y := if (x >>> y) &&& 0x00000002 ≠ 0 then toU32 (y + 1) else y
      y) := rfl
  rw [e1]
  clear e1
  obtain ⟨y1, hy1⟩ : ∃ v, v = (if x &&& 0xFFFF0000 ≠ 0 then 16 else 0) := ⟨_, rfl⟩
  rw [← hy1] at s1 ⊢
  have b1 : y1 ≤ 16 := by rw [hy1]; split_ifs <;> omega
  have s2 := scan_step 8 0xFF00 x y1 (by decide) s1.1 (by simpa using s1.2)
  have t2 : toU32 (y1 + 8) = y1 + 8 := by unfold toU32; omega
  simp only [t2]
  obtain ⟨y2, hy2⟩ : ∃ v, v = (if (x >>> y1) &&& 0xFF00 ≠ 0 then y1 + 8 else y1) := ⟨_, rfl⟩
  rw [← hy2] at s2 ⊢
  have b2 : y2 ≤ 24 := by rw [hy2]; split_ifs <;> omega
  have s3 := scan_step 4 0xF0 x y2 (by decide) s2.1 (by simpa using s2.2)
  have t3 : toU32 (y2 + 4) = y2 + 4 := by unfold toU32; omega
  simp only [t3]
  obtain ⟨y3, hy3⟩ : ∃ v, v = (if (x >>> y2) &&& 0xF0 ≠ 0 then y2 + 4 else y2) := ⟨_, rfl⟩
  rw [← hy3] at s3 ⊢
  have b3 : y3 ≤ 28 := by rw [hy3]; split_ifs <;> omega
  have s4 := scan_step 2 0xC x y3 (by decide) s3.1 (by simpa using s3.2)
  have t4 : toU32 (y3 + 2) = y3 + 2 := by unfold toU32; omega
  simp only [t4]
  obtain ⟨y4, hy4⟩ : ∃ v, v = (if (x >>> y3) &&& 0xC ≠ 0 then y3 + 2 else y3) := ⟨_, rfl⟩
  rw [← hy4] at s4 ⊢
  have b4 : y4 ≤ 30 := by rw [hy4]; split_ifs <;> omega
  have s5 := scan_step 1 0x2 x y4 (by decide) s4.1 (by simpa using s4.2)
  have t5 : toU32 (y4 + 1) = y4 + 1 := by unfold toU32; omega
  simp only [t5]
  obtain ⟨y5, hy5⟩ : ∃ v, v = (if (x >>> y4) &&& 0x2 ≠ 0 then y4 + 1 else y4) := ⟨_, rfl⟩
  rw [← hy5] at s5 ⊢
  have b5 : y5 ≤ 31 := by rw [hy5]; split_ifs <;> omega
  exact ⟨s5.1, s5.2, b5⟩

theorem scan_u16_spec (x : Nat) (h0 : 0 < x) (h : x < 2 ^ 16) :
    2 ^ scan_u16 x ≤ x ∧ x < 2 ^ (scan_u16 x + 1) ∧ scan_u16 x ≤ 15 := by
  have s2 := scan_step 8 0xFF00 x 0 (by decide) (by simpa using h0) (by simpa using h)
  simp only [Nat.shiftRight_zero, Nat.zero_add] at s2
  have e1 : scan_u16 x =
      (let y := if x &&& 0xFF00 ≠ 0 then 8 else 0
      let y := if (x >>> y) &&& 0x00F0 ≠ 0 then toU16 (y + 4) else y
      let y := if (x >>> y) &&& 0x000C ≠ 0 then toU16 (y + 2) else y
      let y := if (x >>> y) &&& 0x0002 ≠ 0 then toU16 (y + 1) else y
      y) := rfl
  rw [e1]
  clear e1
  obtain ⟨y2, hy2⟩ : ∃ v, v = (if x &&& 0xFF00 ≠ 0 then 8 else 0) := ⟨_, rfl⟩
  rw [← hy2] at s2 ⊢
  have b2 : y2 ≤ 8 := by rw [hy2]; split_ifs <;> omega
  have s3 := scan_step 4 0xF0 x y2 (by decide) s2.1 (by simpa using s2.2)
  have t3 : toU16 (y2 + 4) = y2 + 4 := by unfold toU16; omega
  simp only [t3]
  obtain ⟨y3, hy3⟩ : ∃ v, v = (if (x >>> y2) &&& 0xF0 ≠ 0 then y2 + 4 else y2) := ⟨_, rfl⟩
  rw [← hy3] at s3 ⊢
  have b3 : y3 ≤ 12 := by rw [hy3]; split_ifs <;> omega
  have s4 := scan_step 2 0xC x y3 (by decide) s3.1 (by simpa using s3.2)
  have t4 : toU16 (y3 + 2) = y3 + 2 := by unfold toU16; omega
  simp only [t4]
  obtain ⟨y4, hy4⟩ : ∃ v, v = (if (x >>> y3) &&& 0xC ≠ 0 then y3 + 2 else y3) := ⟨_, rfl⟩
  rw [← hy4] at s4 ⊢
  have b4 : y4 ≤ 14 := by rw [hy4]; split_ifs <;> omega
  have s5 := scan_step 1 0x2 x y4 (by decide) s4.1 (by simpa using s4.2)
  have t5 : toU16 (y4 + 1) = y4 + 1 := by unfold toU16; omega
  simp only [t5]
  obtain ⟨y5, hy5⟩ : ∃ v, v = (if (x >>> y4) &&& 0x2 ≠ 0 then y4 + 1 else y4) := ⟨_, rfl⟩
  rw [← hy5] at s5 ⊢
  have b5 : y5 ≤ 15 := by rw [hy5]; split_ifs <;> omega
  exact ⟨s5.1, s5.2, b5⟩

/-! ## The loop on exact naturals -/

theorem step_u16_eq (m y : Nat) (hm : m < 2 ^ 16) (hy : y < 2 ^ 15) :
    step_u16 (m, y) = stepR (2 ^ 15) (m, y) := by
  have hp : m * m + 0x4000 < 2 ^ 32 := by
    have := Nat.mul_le_mul (show m ≤ 2 ^ 16 - 1 by omega) (show m ≤ 2 ^ 16 - 1 by omega)
    omega
  have hm32 : m < 2 ^ 32 := by omega
  unfold step_u16 stepR negI32
  simp only [toU16, toU32, Nat.shiftLeft_eq, Nat.shiftRight_eq_div_pow]
  have r1 : m % 2 ^ 32 = m := Nat.mod_eq_of_lt hm32
  have r2 : (m * m + 16384) % 2 ^ 32 = m * m + 16384 := Nat.mod_eq_of_lt hp
  simp only [r1, r2, decide_eq_true_eq]
  generalize m * m = p at hp ⊢
  by_cases hc : 2 ^ 31 ≤ p + 0x4000
  · have hc2 : 2 * 2 ^ 15 * 2 ^ 15 ≤ p + 2 ^ 15 / 2 := by omega
    simp only [hc, hc2, decide_True, if_true]
    refine Prod.ext ?_ ?_ <;> simp only <;> omega
  · have hc2 : ¬ 2 * 2 ^ 15 * 2 ^ 15 ≤ p + 2 ^ 15 / 2 := by omega
    simp only [hc, hc2, decide_False, if_false]
    refine Prod.ext ?_ ?_ <;> simp only <;> omega

theorem step_u32_eq (m y : Nat) (hm : m < 2 ^ 32) (hy : y < 2 ^ 31) :
    step_u32 (m, y) = stepR (2 ^ 31) (m, y) := by
  have hp : m * m + 0x40000000 < 2 ^ 64 := by
    have := Nat.mul_le_mul (show m ≤ 2 ^ 32 - 1 by omega) (show m ≤ 2 ^ 32 - 1 by omega)
    omega
  have hm64 : m < 2 ^ 64 := by omega
  unfold step_u32 stepR negI64
  simp only [toU32, toU64, Nat.shiftLeft_eq, Nat.shiftRight_eq_div_pow]
  have r1 : m % 2 ^ 64 = m := Nat.mod_eq_of_lt hm64
  have r2 : (m * m + 1073741824) % 2 ^ 64 = m * m + 1073741824 := Nat.mod_eq_of_lt hp
  simp only [r1, r2, decide_eq_true_eq]
  generalize m * m = p at hp ⊢
  by_cases hc : 2 ^ 63 ≤ p + 0x40000000
  · have hc2 : 2 * 2 ^ 31 * 2 ^ 31 ≤ p + 2 ^ 31 / 2 := by omega
    simp only [hc, hc2, decide_True, if_true]
    refine Prod.ext ?_ ?_ <;> simp only <;> omega
  · have hc2 : ¬ 2 * 2 ^ 31 * 2 ^ 31 ≤ p + 2 ^ 31 / 2 := by omega
    simp only [hc, hc2, decide_False, if_false]
    refine Prod.ext ?_ ?_ <;> simp only <;> omega

theorem stepR_snd (R : Nat) (s : Nat × Nat) :
    (stepR R s).2 = 2 * s.2 ∨ (stepR R s).2 = 2 * s.2 + 1 := by
  unfold stepR
  simp only
  split_ifs
  · right; rfl
  · left; rfl

theorem stepR_fst (R : Nat) (s : Nat × Nat) (hR : 1 ≤ R) (h1 : R ≤ s.1) (h2 : s.1 < 2 * R) :
    R ≤ (stepR R s).1 ∧ (stepR R s).1 < 2 * R := by
  obtain ⟨m, y⟩ := s
  simp only at h1 h2
  have hh : R / 2 < R := by omega
  have hsq : m * m + 4 * R ≤ 4 * (R * R) + 1 := by
    obtain ⟨d, hd⟩ : ∃ d, m + d + 1 = 2 * R := ⟨2 * R - m - 1, by omega⟩
    have : m = 2 * R - 1 - d := by omega
    have h3 : m * m ≤ (2 * R - 1) * (2 * R - 1) :=
      Nat.mul_le_mul (by omega) (by omega)
    obtain ⟨r, hr⟩ : ∃ r, R = r + 1 := ⟨R - 1, by omega⟩
    subst hr
    have e : 2 * (r + 1) - 1 = 2 * r + 1 := by omega
    rw [e] at h3
    nlinarith
  have hlo : R * R ≤ m * m := Nat.mul_le_mul h1 h1
  have e2 : 2 * R * R = 2 * (R * R) := by ring
  have e3 : 2 * R * (2 * R) = 4 * (R * R) := by ring
  have e4 : R * (2 * R) = 2 * (R * R) := by ring
  unfold stepR
  simp only
  split_ifs with hc
  · simp only
    constructor
    · rw [Nat.le_div_iff_mul_le (by omega), e4]
      omega
    · rw [Nat.div_lt_iff_lt_mul (by omega), e3]
      omega
  · simp only
    constructor
    · rw [Nat.le_div_iff_mul_le (by omega)]
      omega
    · rw [Nat.div_lt_iff_lt_mul (by omega), Nat.mul_comm (2 * R) R, e4]
      omega

theorem iter_fst (R n : Nat) (s : Nat × Nat) (hR : 1 ≤ R) (h1 : R ≤ s.1)
    (h2 : s.1 < 2 * R) :
    R ≤ ((stepR R)^[n] s).1 ∧ ((stepR R)^[n] s).1 < 2 * R := by
  induction n with
  | zero => exact ⟨h1, h2⟩
  | succ n ih =>
    rw [Function.iterate_succ_apply']
    exact stepR_fst R _ hR ih.1 ih.2

theorem iter_snd (R n : Nat) (s : Nat × Nat) :
    s.2 * 2 ^ n ≤ ((stepR R)^[n] s).2 ∧ ((stepR R)^[n] s).2 < (s.2 + 1) * 2 ^ n := by
  induction n with
  | zero => simp
  | succ n ih =>
    rw [Function.iterate_succ_apply']
    have h := stepR_snd R ((stepR R)^[n] s)
    have e1 : s.2 * 2 ^ (n + 1) = 2 * (s.2 * 2 ^ n) := by ring
    have e2 : (s.2 + 1) * 2 ^ (n + 1) = 2 * ((s.2 + 1) * 2 ^ n) := by ring
    rw [e1, e2]
    omega

/-- The integer part of the accumulator is the initial exponent. -/
theorem iter_snd_div (R n : Nat) (s : Nat × Nat) : ((stepR R)^[n] s).2 / 2 ^ n = s.2 := by
  have h := iter_snd R n s
  apply Nat.le_antisymm
  · have := (Nat.div_lt_iff_lt_mul (Nat.two_pow_pos n)).mpr h.2
    omega
  · exact (Nat.le_div_iff_mul_le (Nat.two_pow_pos n)).mpr h.1

theorem iter_u16_eq (n : Nat) : ∀ s : Nat × Nat, 2 ^ 15 ≤ s.1 → s.1 < 2 ^ 16 →
    (s.2 + 1) * 2 ^ n ≤ 2 ^ 16 → step_u16^[n] s = (stepR (2 ^ 15))^[n] s := by
  induction n with
  | zero => intro s _ _ _; simp only [Function.iterate_zero]
  | succ n ih =>
    intro s h1 h2 hy
    have e : (s.2 + 1) * 2 ^ (n + 1) = 2 * ((s.2 + 1) * 2 ^ n) := by ring
    have hpos : 1 ≤ 2 ^ n := Nat.one_le_two_pow
    have hy15 : s.2 < 2 ^ 15 := by
      have : (s.2 + 1) * 1 ≤ (s.2 + 1) * 2 ^ n := Nat.mul_le_mul_left _ hpos
      omega
    rw [Function.iterate_succ_apply, Function.iterate_succ_apply]
    have hs : step_u16 s = stepR (2 ^ 15) s := step_u16_eq s.1 s.2 h2 hy15
    rw [hs]
    have hf := stepR_fst (2 ^ 15) s (by norm_num) h1 (by omega)
    apply ih _ hf.1 (by omega)
    rcases stepR_snd (2 ^ 15) s with h | h <;> rw [h]
    · have : (2 * s.2 + 1) * 2 ^ n ≤ (2 * s.2 + 2) * 2 ^ n :=
        Nat.mul_le_mul_right _ (by omega)
      have e3 : (2 * s.2 + 2) * 2 ^ n = 2 * ((s.2 + 1) * 2 ^ n) := by ring
      have e4 : (2 * s.2 + 1) * 2 ^ n = 2 * s.2 * 2 ^ n + 2 ^ n := by ring
      omega
    · have e3 : (2 * s.2 + 1 + 1) * 2 ^ n = 2 * ((s.2 + 1) * 2 ^ n) := by ring
      omega

theorem iter_u32_eq (n : Nat) : ∀ s : Nat × Nat, 2 ^ 31 ≤ s.1 → s.1 < 2 ^ 32 →
    (s.2 + 1) * 2 ^ n ≤ 2 ^ 32 → step_u32^[n] s = (stepR (2 ^ 31))^[n] s := by
  induction n with
  | zero => intro s _ _ _; simp only [Function.iterate_zero]
  | succ n ih =>
    intro s h1 h2 hy
    have e : (s.2 + 1) * 2 ^ (n + 1) = 2 * ((s.2 + 1) * 2 ^ n) := by ring
    have hpos : 1 ≤ 2 ^ n := Nat.one_le_two_pow
    have hy15 : s.2 < 2 ^ 31 := by
      have : (s.2 + 1) * 1 ≤ (s.2 + 1) * 2 ^ n := Nat.mul_le_mul_left _ hpos
      omega
    rw [Function.iterate_succ_apply, Function.iterate_succ_apply]
    have hs : step_u32 s = stepR (2 ^ 31) s := step_u32_eq s.1 s.2 h2 hy15
    rw [hs]
    have hf := stepR_fst (2 ^ 31) s (by norm_num) h1 (by omega)
    apply ih _ hf.1 (by omega)
    rcases stepR_snd (2 ^ 31) s with h | h <;> rw [h]
    · have : (2 * s.2 + 1) * 2 ^ n ≤ (2 * s.2 + 2) * 2 ^ n :=
        Nat.mul_le_mul_right _ (by omega)
      have e3 : (2 * s.2 + 2) * 2 ^ n = 2 * ((s.2 + 1) * 2 ^ n) := by ring
      have e4 : (2 * s.2 + 1) * 2 ^ n = 2 * s.2 * 2 ^ n + 2 ^ n := by ring
      omega
    · have e3 : (2 * s.2 + 1 + 1) * 2 ^ n = 2 * ((s.2 + 1) * 2 ^ n) := by ring
      omega

/-- The normalising shift puts the highest set bit at position `W`. -/
theorem norm_bounds (W k x : Nat) (hk : k ≤ W) (hlo : 2 ^ k ≤ x) (hhi : x < 2 ^ (k + 1)) :
    2 ^ W ≤ x * 2 ^ (W - k) ∧ x * 2 ^ (W - k) < 2 ^ (W + 1) := by
  have e1 : 2 ^ W = 2 ^ k * 2 ^ (W - k) := by
    rw [← Nat.pow_add]
    congr 1
    omega
  have e2 : 2 ^ (W + 1) = 2 ^ (k + 1) * 2 ^ (W - k) := by
    rw [← Nat.pow_add]
    congr 1
    omega
  rw [e1, e2]
  exact ⟨Nat.mul_le_mul_right _ hlo, Nat.mul_lt_mul_of_pos_right hhi (Nat.two_pow_pos _)⟩

theorem run_u16_eq (n x : Nat) (h0 : 0 < x) (hx : x < 2 ^ 16) (hn : n ≤ 12) :
    run_u16 n x = (stepR (2 ^ 15))^[n] (x * 2 ^ (15 - scan_u16 x), scan_u16 x) := by
  obtain ⟨hlo, hhi, hk⟩ := scan_u16_spec x h0 hx
  obtain ⟨b1, b2⟩ := norm_bounds 15 (scan_u16 x) x hk hlo hhi
  have e : toU16 (x <<< (15 - scan_u16 x)) = x * 2 ^ (15 - scan_u16 x) := by
    rw [Nat.shiftLeft_eq]
    exact Nat.mod_eq_of_lt b2
  unfold run_u16
  simp only [e]
  apply iter_u16_eq n _ b1 b2
  have h1 : (scan_u16 x + 1) * 2 ^ n ≤ 16 * 2 ^ 12 :=
    Nat.mul_le_mul (by omega) (Nat.pow_le_pow_right (by norm_num) hn)
  simpa using h1

theorem run_u32_eq (n x : Nat) (h0 : 0 < x) (hx : x < 2 ^ 32) (hn : n ≤ 27) :
    run_u32 n x = (stepR (2 ^ 31))^[n] (x * 2 ^ (31 - scan_u32 x), scan_u32 x) := by
  obtain ⟨hlo, hhi, hk⟩ := scan_u32_spec x h0 hx
  obtain ⟨b1, b2⟩ := norm_bounds 31 (scan_u32 x) x hk hlo hhi
  have e : toU32 (x <<< (31 - scan_u32 x)) = x * 2 ^ (31 - scan_u32 x) := by
    rw [Nat.shiftLeft_eq]
    exact Nat.mod_eq_of_lt b2
  unfold run_u32
  simp only [e]
  apply iter_u32_eq n _ b1 b2
  have h1 : (scan_u32 x + 1) * 2 ^ n ≤ 32 * 2 ^ 27 :=
    Nat.mul_le_mul (by omega) (Nat.pow_le_pow_right (by norm_num) hn)
  simpa using h1

theorem acc_u16_eq (n x : Nat) (h0 : 0 < x) (hx : x < 2 ^ 16) (hn : n ≤ 12) :
    acc_u16 n x = ((stepR (2 ^ 15))^[n] (x * 2 ^ (15 - scan_u16 x), scan_u16 x)).2 := by
  unfold acc_u16
  rw [run_u16_eq n x h0 hx hn]

theorem acc_u32_eq (n x : Nat) (h0 : 0 < x) (hx : x < 2 ^ 32) (hn : n ≤ 27) :
    acc_u32 n x = ((stepR (2 ^ 31))^[n] (x * 2 ^ (31 - scan_u32 x), scan_u32 x)).2 := by
  unfold acc_u32
  rw [run_u32_eq n x h0 hx hn]

/-- The accumulator holds the exponent in its integer part. -/
theorem acc_u16_bounds (n x : Nat) (h0 : 0 < x) (hx : x < 2 ^ 16) (hn : n ≤ 12) :
    scan_u16 x * 2 ^ n ≤ acc_u16 n x ∧ acc_u16 n x < (scan_u16 x + 1) * 2 ^ n := by
  rw [acc_u16_eq n x h0 hx hn]
  exact iter_snd (2 ^ 15) n (x * 2 ^ (15 - scan_u16 x), scan_u16 x)

theorem acc_u32_bounds (n x : Nat) (h0 : 0 < x) (hx : x < 2 ^ 32) (hn : n ≤ 27) :
    scan_u32 x * 2 ^ n ≤ acc_u32 n x ∧ acc_u32 n x < (scan_u32 x + 1) * 2 ^ n := by
  rw [acc_u32_eq n x h0 hx hn]
  exact iter_snd (2 ^ 31) n (x * 2 ^ (31 - scan_u32 x), scan_u32 x)

theorem acc_u16_div (n x : Nat) (h0 : 0 < x) (hx : x < 2 ^ 16) (hn : n ≤ 12) :
    acc_u16 n x / 2 ^ n = scan_u16 x := by
  rw [acc_u16_eq n x h0 hx hn]
  exact iter_snd_div (2 ^ 15) n (x * 2 ^ (15 - scan_u16 x), scan_u16 x)

theorem acc_u32_div (n x : Nat) (h0 : 0 < x) (hx : x < 2 ^ 32) (hn : n ≤ 27) :
    acc_u32 n x / 2 ^ n = scan_u32 x := by
  rw [acc_u32_eq n x h0 hx hn]
  exact iter_snd_div (2 ^ 31) n (x * 2 ^ (31 - scan_u32 x), scan_u32 x)

/-- On input zero the loops stay at `(0, 0)`. -/
theorem acc_u16_zero (n : Nat) : acc_u16 n 0 = 0 := by
  have h1 : scan_u16 0 = 0 := by decide
  have h2 : toU16 (0 <<< (15 - 0)) = 0 := by decide
  have h3 : step_u16 (0, 0) = (0, 0) := by decide
  unfold acc_u16 run_u16
  simp only [h1, h2, Function.iterate_fixed h3]

theorem acc_u32_zero (n : Nat) : acc_u32 n 0 = 0 := by
  have h1 : scan_u32 0 = 0 := by decide
  have h2 : toU32 (0 <<< (31 - 0)) = 0 := by decide
  have h3 : step_u32 (0, 0) = (0, 0) := by decide
  unfold acc_u32 run_u32
  simp only [h1, h2, Function.iterate_fixed h3]

/-- The accumulator of the 32-bit loop after ten iterations fits fifteen bits. -/
theorem acc_u32_ten_lt (m : Nat) (hm : m < 2 ^ 32) : acc_u32 10 m < 2 ^ 15 := by
  rcases Nat.eq_zero_or_pos m with h | h
  · subst h
    rw [acc_u32_zero]
    norm_num
  · have h1 := (acc_u32_bounds 10 m h hm (by norm_num)).2
    have h2 := (scan_u32_spec m h hm).2.2
    have h3 : (scan_u32 m + 1) * 2 ^ 10 ≤ 32 * 2 ^ 10 := Nat.mul_le_mul_right _ (by omega)
    omega

theorem abs_i32_nonneg (x : Int) (h0 : 0 ≤ x) (hx : x < 2 ^ 31) : abs_i32 x = x.toNat := by
  unfold abs_i32 toI32
  rw [if_neg (by omega)]
  congr 1
  omega

theorem abs_i32_neg (x : Int) (h0 : x < 0) (hx : -2 ^ 31 ≤ x) : abs_i32 x = (-x).toNat := by
  unfold abs_i32 toI32
  rw [if_pos h0]
  congr 1
  omega

theorem abs_i32_lt (x : Int) (h0 : -2 ^ 31 ≤ x) (hx : x < 2 ^ 31) : abs_i32 x < 2 ^ 32 := by
  rcases lt_or_le x 0 with h | h
  · rw [abs_i32_neg x h h0]; omega
  · rw [abs_i32_nonneg x h hx]; omega

theorem log2_i32_nonneg (x : Int) (h0 : 0 ≤ x) (hx : x < 2 ^ 31) :
    log2_i32 x = (acc_u32 10 x.toNat : Int) := by
  have hb := acc_u32_ten_lt (abs_i32 x) (abs_i32_lt x (by omega) hx)
  rw [abs_i32_nonneg x h0 hx] at hb
  unfold log2_i32
  simp only
  rw [if_neg (by omega), abs_i32_nonneg x h0 hx]
  unfold toI16
  omega

theorem log2_i32_neg (x : Int) (h0 : x < 0) (hx : -2 ^ 31 ≤ x) :
    log2_i32 x = -(acc_u32 10 (-x).toNat : Int) := by
  have hb := acc_u32_ten_lt (abs_i32 x) (abs_i32_lt x hx (by omega))
  rw [abs_i32_neg x h0 hx] at hb
  unfold log2_i32
  simp only
  rw [if_pos h0, abs_i32_neg x h0 hx]
  unfold toI16 toU32
  omega

/-! ## Monotonicity of the loop -/

theorem stepR_mono (R : Nat) (s t : Nat × Nat) (h : stateLe s t) :
    stateLe (stepR R s) (stepR R t) := by
  rcases h with h | ⟨h1, h2⟩
  · left
    rcases stepR_snd R s with a | a <;> rcases stepR_snd R t with b | b <;> omega
  · have hp : s.1 * s.1 ≤ t.1 * t.1 := Nat.mul_le_mul h2 h2
    unfold stateLe stepR
    simp only
    by_cases c1 : 2 * R * R ≤ s.1 * s.1 + R / 2
    · have c2 : 2 * R * R ≤ t.1 * t.1 + R / 2 := by omega
      rw [if_pos c1, if_pos c2]
      right
      exact ⟨by simp only; omega, Nat.div_le_div_right (by omega)⟩
    · rw [if_neg c1]
      by_cases c2 : 2 * R * R ≤ t.1 * t.1 + R / 2
      · rw [if_pos c2]
        left
        simp only
        omega
      · rw [if_neg c2]
        right
        exact ⟨by simp only; omega, Nat.div_le_div_right (by omega)⟩

theorem iter_mono (R n : Nat) (s t : Nat × Nat) (h : stateLe s t) :
    stateLe ((stepR R)^[n] s) ((stepR R)^[n] t) := by
  induction n with
  | zero => exact h
  | succ n ih =>
    rw [Function.iterate_succ_apply', Function.iterate_succ_apply']
    exact stepR_mono R _ _ ih

theorem stateLe_snd (s t : Nat × Nat) (h : stateLe s t) : s.2 ≤ t.2 := by
  rcases h with h | ⟨h, _⟩ <;> omega

/-- Initial states of two inputs `x1 ≤ x2` are ordered. -/
theorem init_le (W k1 k2 x1 x2 : Nat) (h : x1 ≤ x2)
    (l1 : 2 ^ k1 ≤ x1) (l2 : 2 ^ k2 ≤ x2) (u2 : x2 < 2 ^ (k2 + 1)) :
    stateLe (x1 * 2 ^ (W - k1), k1) (x2 * 2 ^ (W - k2), k2) := by
  have hk : k1 ≤ k2 := by
    by_contra hc
    push_neg at hc
    have := Nat.pow_le_pow_right (n := 2) (by norm_num) (show k2 + 1 ≤ k1 by omega)
    omega
  rcases Nat.lt_or_eq_of_le hk with hlt | heq
  · left; exact hlt
  · right
    subst heq
    exact ⟨rfl, Nat.mul_le_mul_right _ h⟩

theorem acc_u16_mono (n x1 x2 : Nat) (hn : n ≤ 12) (h0 : 0 < x1) (h : x1 ≤ x2)
    (hx : x2 < 2 ^ 16) : acc_u16 n x1 ≤ acc_u16 n x2 := by
  rw [acc_u16_eq n x1 h0 (by omega) hn, acc_u16_eq n x2 (by omega) hx hn]
  obtain ⟨l1, -, -⟩ := scan_u16_spec x1 h0 (by omega)
  obtain ⟨l2, u2, -⟩ := scan_u16_spec x2 (by omega) hx
  exact stateLe_snd _ _ (iter_mono _ _ _ _ (init_le 15 _ _ x1 x2 h l1 l2 u2))

theorem acc_u32_mono (n x1 x2 : Nat) (hn : n ≤ 27) (h0 : 0 < x1) (h : x1 ≤ x2)
    (hx : x2 < 2 ^ 32) : acc_u32 n x1 ≤ acc_u32 n x2 := by
  rw [acc_u32_eq n x1 h0 (by omega) hn, acc_u32_eq n x2 (by omega) hx hn]
  obtain ⟨l1, -, -⟩ := scan_u32_spec x1 h0 (by omega)
  obtain ⟨l2, u2, -⟩ := scan_u32_spec x2 (by omega) hx
  exact stateLe_snd _ _ (iter_mono _ _ _ _ (init_le 31 _ _ x1 x2 h l1 l2 u2))

/-! ## Error analysis of the squaring recurrence -/

theorem logb_one_add_le (t : ℝ) (ht : 0 ≤ t) : Real.logb 2 (1 + t) ≤ 2 * t := by
  have h2 : (1 / 2 : ℝ) < Real.log 2 := by
    have := Real.log_two_gt_d9
    linarith
  have h1 : Real.log (1 + t) ≤ t := by
    have := Real.log_le_sub_one_of_pos (show (0 : ℝ) < 1 + t by linarith)
    linarith
  unfold Real.logb
  rw [div_le_iff₀ (by linarith)]
  nlinarith

theorem logb_one_sub_ge (t : ℝ) (ht : 0 ≤ t) (ht4 : t ≤ 1 / 4) :
    -(2 * t) ≤ Real.logb 2 (1 - t) := by
  have h2 : (0.69 : ℝ) < Real.log 2 := by
    have := Real.log_two_gt_d9
    linarith
  have hpos : (0 : ℝ) < 1 - t := by linarith
  have h1 : 1 - (1 - t)⁻¹ ≤ Real.log (1 - t) := Real.one_sub_inv_le_log_of_pos hpos
  have h3 : (1 - t)⁻¹ ≤ 1 + (4 / 3) * t := by
    rw [inv_le_iff_one_le_mul₀ hpos]
    nlinarith
  unfold Real.logb
  rw [le_div_iff₀ (by linarith)]
  nlinarith

/-- The exact integer relation between a mantissa and its successor: with
`D = 2 ^ b * R * m'` the scaled successor, `(R - 1) * m ^ 2 ≤ R * D` and
`2 * R * D ≤ (2 * R + 1) * m ^ 2`. -/
theorem stepR_ratio (R : Nat) (s : Nat × Nat) (hR : 2 ≤ R) (h1 : R ≤ s.1) :
    ∃ b : Nat, (stepR R s).2 = 2 * s.2 + b ∧
      (R - 1) * (s.1 * s.1) ≤ R * (2 ^ b * R * (stepR R s).1) ∧
      2 * R * (2 ^ b * R * (stepR R s).1) ≤ (2 * R + 1) * (s.1 * s.1) := by
  obtain ⟨m, y⟩ := s
  simp only at h1
  have hlo : R * R ≤ m * m := Nat.mul_le_mul h1 h1
  obtain ⟨r, hr⟩ : ∃ r, R = r + 2 := ⟨R - 2, by omega⟩
  unfold stepR
  simp only
  by_cases hc : 2 * R * R ≤ m * m + R / 2
  · rw [if_pos hc]
    refine ⟨1, rfl, ?_, ?_⟩
    · simp only
      have hd := Nat.div_add_mod (m * m + R / 2) (2 * R)
      have hm := Nat.mod_lt (m * m + R / 2) (show 0 < 2 * R by omega)
      have hh : R ≤ 2 * (R / 2) + 1 := by omega
      generalize (m * m + R / 2) / (2 * R) = q at hd ⊢
      generalize (m * m + R / 2) % (2 * R) = e at hd hm
      generalize R / 2 = c at hd hh hc
      generalize m * m = p at hd hlo hc ⊢
      have hA : R * (2 * R * q) + R * e = R * p + R * c := by
        rw [← Nat.mul_add, hd, Nat.mul_add]
      have hB : (R - 1) * p + p = R * p := by
        subst hr
        have e0 : r + 2 - 1 = r + 1 := by omega
        rw [e0]
        ring
      have k1 : R * e + R ≤ 2 * (R * R) := by
        have := Nat.mul_le_mul_left R (show e + 1 ≤ 2 * R by omega)
        have e1 : R * (e + 1) = R * e + R := by ring
        have e2 : R * (2 * R) = 2 * (R * R) := by ring
        omega
      have k2 : c ≤ R * c := Nat.le_mul_of_pos_left c (by omega)
      have e3 : 2 * R * R = 2 * (R * R) := by ring
      have e4 : R * (2 ^ 1 * R * q) = R * (2 * R * q) := by ring
      rw [e4]
      omega
    · simp only
      have hd := Nat.div_mul_le_self (m * m + R / 2) (2 * R)
      have hh : 2 * (R / 2) ≤ R := by omega
      generalize (m * m + R / 2) / (2 * R) = q at hd ⊢
      generalize R / 2 = c at hd hh hc
      generalize m * m = p at hd hlo hc ⊢
      nlinarith
  · rw [if_neg hc]
    refine ⟨0, rfl, ?_, ?_⟩
    · simp only
      have hd := Nat.div_add_mod (m * m + R / 2) R
      have hm := Nat.mod_lt (m * m + R / 2) (show 0 < R by omega)
      generalize (m * m + R / 2) / R = q at hd ⊢
      generalize (m * m + R / 2) % R = e at hd hm
      generalize R / 2 = c at hd hc
      generalize m * m = p at hd hlo hc ⊢
      have hA : R * (R * q) + R * e = R * p + R * c := by
        rw [← Nat.mul_add, hd, Nat.mul_add]
      have hB : (R - 1) * p + p = R * p := by
        subst hr
        have e0 : r + 2 - 1 = r + 1 := by omega
        rw [e0]
        ring
      have k1 : R * e + R ≤ R * R := by
        have := Nat.mul_le_mul_left R (show e + 1 ≤ R by omega)
        have e1 : R * (e + 1) = R * e + R := by ring
        omega
      have e4 : R * (2 ^ 0 * R * q) = R * (R * q) := by ring
      rw [e4]
      omega
    · simp only
      have hd := Nat.div_mul_le_self (m * m + R / 2) R
      have hh : 2 * (R / 2) ≤ R := by omega
      generalize (m * m + R / 2) / R = q at hd ⊢
      generalize R / 2 = c at hd hh hc
      generalize m * m = p at hd hlo hc ⊢
      nlinarith

/-- One iteration doubles `y + log2 (m / R)` up to an error in `[-2 / R, 1 / R]`. -/
theorem step_log (R : Nat) (s : Nat × Nat) (hR : 4 ≤ R) (h1 : R ≤ s.1) (h2 : s.1 < 2 * R) :
    2 * ((s.2 : ℝ) + Real.logb 2 ((s.1 : ℝ) / R)) - 2 / (R : ℝ)
        ≤ ((stepR R s).2 : ℝ) + Real.logb 2 (((stepR R s).1 : ℝ) / R) ∧
      ((stepR R s).2 : ℝ) + Real.logb 2 (((stepR R s).1 : ℝ) / R)
        ≤ 2 * ((s.2 : ℝ) + Real.logb 2 ((s.1 : ℝ) / R)) + 1 / (R : ℝ) := by
  obtain ⟨b, hb, lo, hi⟩ := stepR_ratio R s (by omega) h1
  obtain ⟨f1, -⟩ := stepR_fst R s (by omega) h1 h2
  generalize (stepR R s).1 = m' at lo hi f1 ⊢
  generalize (stepR R s).2 = y' at hb ⊢
  obtain ⟨m, y⟩ := s
  simp only at h1 h2 hb lo hi ⊢
  have hR4 : (4 : ℝ) ≤ R := by exact_mod_cast hR
  have hRpos : (0 : ℝ) < R := by linarith
  have hmpos : (0 : ℝ) < m := by exact_mod_cast (show 0 < m by omega)
  have hm'pos : (0 : ℝ) < m' := by exact_mod_cast (show 0 < m' by omega)
  have lo' : ((R : ℝ) - 1) * (m * m) ≤ R * (2 ^ b * R * m') := by
    have e : ((R - 1 : ℕ) : ℝ) = (R : ℝ) - 1 := by
      rw [Nat.cast_sub (by omega)]
      simp
    rw [← e]
    exact_mod_cast lo
  have hi' : 2 * (R : ℝ) * (2 ^ b * R * m') ≤ (2 * R + 1) * (m * m) := by exact_mod_cast hi
  have hDpos : (0 : ℝ) < 2 ^ b * R * m' := by positivity
  have hppos : (0 : ℝ) < m * m := by positivity
  have key : (y' : ℝ) + Real.logb 2 (m' / R) - 2 * ((y : ℝ) + Real.logb 2 (m / R))
      = Real.logb 2 (2 ^ b * R * m' / (m * m)) := by
    rw [hb]
    push_cast
    rw [Real.logb_div hm'pos.ne' hRpos.ne', Real.logb_div hmpos.ne' hRpos.ne',
      Real.logb_div hDpos.ne' hppos.ne', Real.logb_mul (by positivity) hm'pos.ne',
      Real.logb_mul (by positivity) hRpos.ne', Real.logb_mul hmpos.ne' hmpos.ne',
      Real.logb_pow, Real.logb_self_eq_one (by norm_num)]
    ring
  have q1 : 1 - 1 / (R : ℝ) ≤ 2 ^ b * R * m' / (m * m) := by
    rw [le_div_iff₀ hppos]
    have : (1 - 1 / (R : ℝ)) * (m * m) = ((R : ℝ) - 1) * (m * m) / R := by
      field_simp
    rw [this, div_le_iff₀ hRpos]
    linarith
  have q2 : 2 ^ b * R * m' / (m * m) ≤ 1 + 1 / (2 * (R : ℝ)) := by
    rw [div_le_iff₀ hppos]
    have : (1 + 1 / (2 * (R : ℝ))) * (m * m) = (2 * (R : ℝ) + 1) * (m * m) / (2 * R) := by
      field_simp
    rw [this, le_div_iff₀ (by positivity)]
    linarith
  have t1 : (1 : ℝ) / R ≤ 1 / 4 := by
    exact one_div_le_one_div_of_le (by norm_num) hR4
  have g1 := logb_one_sub_ge (1 / (R : ℝ)) (by positivity) t1
  have g2 := logb_one_add_le (1 / (2 * (R : ℝ))) (by positivity)
  have m1 := Real.logb_le_logb_of_le (b := 2) (by norm_num)
    (show (0 : ℝ) < 1 - 1 / (R : ℝ) by linarith) q1
  have m2 := Real.logb_le_logb_of_le (b := 2) (by norm_num)
    (show (0 : ℝ) < 2 ^ b * R * m' / (m * m) by positivity) q2
  have e1 : 2 * (1 / (R : ℝ)) = 2 / R := by ring
  have e2 : 2 * (1 / (2 * (R : ℝ))) = 1 / R := by field_simp
  constructor <;> linarith

/-- After `n` iterations, `y + log2 (m / R)` is `2 ^ n` times its initial value
up to an error in `[-(2 / R) * (2 ^ n - 1), (1 / R) * (2 ^ n - 1)]`. -/
theorem iter_log (R n : Nat) (s : Nat × Nat) (hR : 4 ≤ R) (h1 : R ≤ s.1) (h2 : s.1 < 2 * R) :
    2 ^ n * ((s.2 : ℝ) + Real.logb 2 ((s.1 : ℝ) / R)) - 2 / (R : ℝ) * (2 ^ n - 1)
        ≤ (((stepR R)^[n] s).2 : ℝ) + Real.logb 2 ((((stepR R)^[n] s).1 : ℝ) / R) ∧
      (((stepR R)^[n] s).2 : ℝ) + Real.logb 2 ((((stepR R)^[n] s).1 : ℝ) / R)
        ≤ 2 ^ n * ((s.2 : ℝ) + Real.logb 2 ((s.1 : ℝ) / R)) + 1 / (R : ℝ) * (2 ^ n - 1) := by
  induction n with
  | zero => simp
  | succ n ih =>
    rw [Function.iterate_succ_apply']
    obtain ⟨f1, f2⟩ := iter_fst R n s (by omega) h1 h2
    obtain ⟨a1, a2⟩ := step_log R _ hR f1 f2
    obtain ⟨i1, i2⟩ := ih
    have hRpos : (0 : ℝ) < R := by exact_mod_cast (show 0 < R by omega)
    have p1 : (0 : ℝ) ≤ 2 / (R : ℝ) := by positivity
    have p2 : (0 : ℝ) ≤ 1 / (R : ℝ) := by positivity
    generalize (2 : ℝ) / R = c1 at *
    generalize (1 : ℝ) / R = c2 at *
    rw [pow_succ]
    constructor <;> nlinarith

/-- The accumulator after `n` iterations against the exact logarithm. -/
theorem iter_err (R n : Nat) (s : Nat × Nat) (hR : 4 ≤ R) (h1 : R ≤ s.1) (h2 : s.1 < 2 * R) :
    2 ^ n * ((s.2 : ℝ) + Real.logb 2 ((s.1 : ℝ) / R)) - 2 / (R : ℝ) * 2 ^ n - 1
        < (((stepR R)^[n] s).2 : ℝ) ∧
      (((stepR R)^[n] s).2 : ℝ)
        ≤ 2 ^ n * ((s.2 : ℝ) + Real.logb 2 ((s.1 : ℝ) / R)) + 1 / (R : ℝ) * 2 ^ n := by
  obtain ⟨i1, i2⟩ := iter_log R n s hR h1 h2
  obtain ⟨f1, f2⟩ := iter_fst R n s (by omega) h1 h2
  have hRpos : (0 : ℝ) < R := by exact_mod_cast (show 0 < R by omega)
  have g1 : (1 : ℝ) ≤ (((stepR R)^[n] s).1 : ℝ) / R := by
    rw [le_div_iff₀ hRpos, one_mul]
    exact_mod_cast f1
  have g2 : (((stepR R)^[n] s).1 : ℝ) / R < 2 := by
    rw [div_lt_iff₀ hRpos]
    exact_mod_cast f2
  have l1 : 0 ≤ Real.logb 2 ((((stepR R)^[n] s).1 : ℝ) / R) :=
    Real.logb_nonneg (by norm_num) g1
  have l2 : Real.logb 2 ((((stepR R)^[n] s).1 : ℝ) / R) < 1 := by
    have := Real.logb_lt_logb (b := 2) (by norm_num) (by linarith) g2
    rwa [Real.logb_self_eq_one (by norm_num)] at this
  have p1 : (0 : ℝ) ≤ 2 / (R : ℝ) := by positivity
  have p2 : (0 : ℝ) ≤ 1 / (R : ℝ) := by positivity
  constructor <;> nlinarith

/-- The initial state carries the exact logarithm of the input. -/
theorem log_init (W k x : Nat) (hk : k ≤ W) (hx : 0 < x) :
    (k : ℝ) + Real.logb 2 (((x * 2 ^ (W - k) : ℕ) : ℝ) / ((2 ^ W : ℕ) : ℝ))
      = Real.logb 2 x := by
  have hxpos : (0 : ℝ) < x := by exact_mod_cast hx
  push_cast
  rw [Real.logb_div (by positivity) (by positivity), Real.logb_mul hxpos.ne' (by positivity),
    Real.logb_pow, Real.logb_pow, Real.logb_self_eq_one (by norm_num), Nat.cast_sub hk]
  ring

theorem acc_u16_err (n : Nat) (hn : n ≤ 12) (x : Nat) (h0 : 0 < x) (hx : x < 2 ^ 16) :
    2 ^ n * Real.logb 2 x - 2 ^ n / 2 ^ 14 - 1 < (acc_u16 n x : ℝ) ∧
      (acc_u16 n x : ℝ) ≤ 2 ^ n * Real.logb 2 x + 2 ^ n / 2 ^ 15 := by
  obtain ⟨hlo, hhi, hk⟩ := scan_u16_spec x h0 hx
  obtain ⟨b1, b2⟩ := norm_bounds 15 (scan_u16 x) x hk hlo hhi
  have b3 : x * 2 ^ (15 - scan_u16 x) < 2 * 2 ^ 15 := by omega
  have h := iter_err (2 ^ 15) n (x * 2 ^ (15 - scan_u16 x), scan_u16 x) (by norm_num) b1 b3
  have hl := log_init 15 (scan_u16 x) x hk h0
  rw [acc_u16_eq n x h0 hx hn]
  generalize ((stepR (2 ^ 15))^[n] (x * 2 ^ (15 - scan_u16 x), scan_u16 x)).2 = y at h ⊢
  simp only at h
  rw [hl] at h
  obtain ⟨h1, h2⟩ := h
  have c : ((2 ^ 15 : ℕ) : ℝ) = 2 ^ 15 := by norm_num
  rw [c] at h1 h2
  have e1 : (2 : ℝ) / 2 ^ 15 * 2 ^ n = 2 ^ n / 2 ^ 14 := by ring
  have e2 : (1 : ℝ) / 2 ^ 15 * 2 ^ n = 2 ^ n / 2 ^ 15 := by ring
  rw [e1] at h1
  rw [e2] at h2
  exact ⟨h1, h2⟩

theorem acc_u32_err (n : Nat) (hn : n ≤ 27) (x : Nat) (h0 : 0 < x) (hx : x < 2 ^ 32) :
    2 ^ n * Real.logb 2 x - 2 ^ n / 2 ^ 30 - 1 < (acc_u32 n x : ℝ) ∧
      (acc_u32 n x : ℝ) ≤ 2 ^ n * Real.logb 2 x + 2 ^ n / 2 ^ 31 := by
  obtain ⟨hlo, hhi, hk⟩ := scan_u32_spec x h0 hx
  obtain ⟨b1, b2⟩ := norm_bounds 31 (scan_u32 x) x hk hlo hhi
  have b3 : x * 2 ^ (31 - scan_u32 x) < 2 * 2 ^ 31 := by omega
  have h := iter_err (2 ^ 31) n (x * 2 ^ (31 - scan_u32 x), scan_u32 x) (by norm_num) b1 b3
  have hl := log_init 31 (scan_u32 x) x hk h0
  rw [acc_u32_eq n x h0 hx hn]
  generalize ((stepR (2 ^ 31))^[n] (x * 2 ^ (31 - scan_u32 x), scan_u32 x)).2 = y at h ⊢
  simp only at h
  rw [hl] at h
  obtain ⟨h1, h2⟩ := h
  have c : ((2 ^ 31 : ℕ) : ℝ) = 2 ^ 31 := by norm_num
  rw [c] at h1 h2
  have p : (0 : ℝ) < 2 ^ n := by positivity
  have e1 : (2 : ℝ) / 2 ^ 31 * 2 ^ n = 2 ^ n / 2 ^ 30 := by ring
  have e2 : (1 : ℝ) / 2 ^ 31 * 2 ^ n = 2 ^ n / 2 ^ 31 := by ring
  rw [e1] at h1
  rw [e2] at h2
  exact ⟨h1, h2⟩

/-! ## Certified lower bounds on `log2` by truncated repeated squaring -/

theorem sqChain_zero (P Y n : Nat) : sqChain P Y n 0 = 0 := by
  induction n with
  | zero => rfl
  | succ n ih => simp [sqChain, ih]

theorem sqChain_sound (P Y : Nat) : ∀ (n a : Nat) (A : ℝ), 0 < sqChain P Y n a →
    Real.logb 2 ((a : ℝ) / 2 ^ P) ≤ A - ((Y / 2 ^ (n) : ℕ) : ℝ) →
    Real.logb 2 ((sqChain P Y n a : ℝ) / 2 ^ P) ≤ 2 ^ n * A - (Y : ℝ) := by
  intro n
  induction n with
  | zero =>
    intro a A _ h
    simpa [sqChain] using h
  | succ n ih =>
    intro a A hpos h
    simp only [sqChain] at hpos ⊢
    set b := (Y / 2 ^ n) % 2 with hb
    set a' := a * a / 2 ^ (P + b) with ha'
    have ha'pos : 0 < a' := by
      rcases Nat.eq_zero_or_pos a' with h0 | h0
      · rw [h0, sqChain_zero] at hpos
        omega
      · exact h0
    have hapos : 0 < a := by
      rcases Nat.eq_zero_or_pos a with h0 | h0
      · rw [ha', h0] at ha'pos
        simp at ha'pos
      · exact h0
    have hle : a' * 2 ^ (P + b) ≤ a * a := Nat.div_mul_le_self _ _
    have hle' : (a' : ℝ) * 2 ^ (P + b) ≤ (a : ℝ) * a := by exact_mod_cast hle
    have hdiv : Y / 2 ^ n = 2 * (Y / 2 ^ (n + 1)) + b := by
      have := Nat.div_add_mod (Y / 2 ^ n) 2
      rw [pow_succ, ← Nat.div_div_eq_div_mul]
      omega
    have hdiv' : ((Y / 2 ^ n : ℕ) : ℝ) = 2 * ((Y / 2 ^ (n + 1) : ℕ) : ℝ) + (b : ℝ) := by
      exact_mod_cast hdiv
    have ha'R : (0 : ℝ) < a' := by exact_mod_cast ha'pos
    have haR : (0 : ℝ) < a := by exact_mod_cast hapos
    have q : (a' : ℝ) / 2 ^ P ≤ (a : ℝ) * a / (2 ^ P * 2 ^ P * 2 ^ b) := by
      rw [div_le_div_iff₀ (by positivity) (by positivity)]
      have e : (a' : ℝ) * (2 ^ P * 2 ^ P * 2 ^ b) = (a' : ℝ) * 2 ^ (P + b) * 2 ^ P := by
        rw [pow_add]
        ring
      rw [e]
      exact mul_le_mul_of_nonneg_right hle' (by positivity)
    have m := Real.logb_le_logb_of_le (b := 2) (by norm_num) (by positivity) q
    have e2 : Real.logb 2 ((a : ℝ) * a / (2 ^ P * 2 ^ P * 2 ^ b))
        = 2 * Real.logb 2 ((a : ℝ) / 2 ^ P) - b := by
      rw [Real.logb_div (by positivity) (by positivity),
        Real.logb_div haR.ne' (by positivity), Real.logb_mul haR.ne' haR.ne',
        Real.logb_mul (by positivity) (by positivity),
        Real.logb_mul (by positivity) (by positivity), Real.logb_pow, Real.logb_pow,
        Real.logb_self_eq_one (by norm_num)]
      ring
    have step : Real.logb 2 ((a' : ℝ) / 2 ^ P) ≤ 2 * A - ((Y / 2 ^ n : ℕ) : ℝ) := by
      rw [hdiv']
      linarith
    have r := ih a' (2 * A) hpos step
    have e3 : (2 : ℝ) ^ (n + 1) * A = 2 ^ n * (2 * A) := by
      rw [pow_succ]
      ring
    rw [e3]
    exact r

/-- A run of `sqChain` ending above `2 ^ P` certifies `Y < 2 ^ F * log2 x`. -/
theorem lt_log_of_chain (P F x Y : Nat) (hx : 0 < x) (hk : Y / 2 ^ F ≤ P)
    (h : 2 ^ P < sqChain P Y F (x * 2 ^ (P - Y / 2 ^ F))) :
    (Y : ℝ) < 2 ^ F * Real.logb 2 x := by
  have hl := log_init P (Y / 2 ^ F) x hk hx
  push_cast at hl
  have hpos : 0 < sqChain P Y F (x * 2 ^ (P - Y / 2 ^ F)) :=
    lt_of_le_of_lt (Nat.zero_le _) h
  have hs := sqChain_sound P Y F (x * 2 ^ (P - Y / 2 ^ F)) (Real.logb 2 x) hpos (by
    push_cast
    linarith)
  have hgt : (1 : ℝ) < (sqChain P Y F (x * 2 ^ (P - Y / 2 ^ F)) : ℝ) / 2 ^ P := by
    rw [lt_div_iff₀ (by positivity), one_mul]
    exact_mod_cast h
  have := Real.logb_pos (b := 2) (by norm_num) hgt
  linarith

/-! ## Error bounds against the real logarithm -/

/-- C1 (as stated, refuted): the 16-bit result for `x = 13` is `15156`, while
`4096 * log2 13 > 15157`, so the error exceeds one unit of the last
fractional bit, `2 ^ (-12)`. -/
theorem C1_counterexample :
    ¬ |(log2_u16 13 : ℝ) / 2 ^ 12 - Real.logb 2 ((13 : ℕ) : ℝ)| ≤ 1 / 2 ^ 12 := by
  have hy : log2_u16 13 = 15156 := by decide!
  have hc : ((15156 + 1 : ℕ) : ℝ) < 2 ^ 12 * Real.logb 2 ((13 : ℕ) : ℝ) :=
    lt_log_of_chain 64 12 13 (15156 + 1) (by norm_num) (by norm_num) (by decide!)
  rw [hy]
  intro h
  rw [abs_le] at h
  obtain ⟨h1, -⟩ := h
  push_cast at hc h1
  have e : (15156 : ℝ) / 2 ^ 12 * 2 ^ 12 = 15156 := by norm_num
  nlinarith

/-- C1 (amended): for every 16-bit `x` with `1 ≤ x ≤ 65535` the result
`y = log2_u16 x` satisfies `|y / 4096 - log2 x| < 2 ^ (-12) + 2 ^ (-14)`. -/
theorem C1_log2_u16_error (x : Nat) (h1 : 1 ≤ x) (h2 : x ≤ 65535) :
    |(log2_u16 x : ℝ) / 2 ^ 12 - Real.logb 2 (x : ℝ)| < 1 / 2 ^ 12 + 1 / 2 ^ 14 := by
  obtain ⟨a, b⟩ := acc_u16_err 12 le_rfl x (by omega) (by omega)
  rw [abs_lt]
  unfold log2_u16
  constructor
  · rw [lt_sub_iff_add_lt, lt_div_iff₀ (by positivity)]
    linarith
  · rw [sub_lt_iff_lt_add, div_lt_iff₀ (by positivity)]
    linarith

/-- Witness for C1: the hypotheses hold at a concrete input. -/
theorem C1_witness :
    1 ≤ 13 ∧ 13 ≤ 65535 ∧
      |(log2_u16 13 : ℝ) / 2 ^ 12 - Real.logb 2 ((13 : ℕ) : ℝ)| < 1 / 2 ^ 12 + 1 / 2 ^ 14 :=
  ⟨by decide, by decide, C1_log2_u16_error 13 (by decide) (by decide)⟩

/-- C2 (as stated, refuted): the 32-bit result for `x = 351` is `1134854808`,
while `2 ^ 27 * log2 351 > 1134854809`, so the error exceeds `2 ^ (-27)`. -/
theorem C2_counterexample :
    ¬ |(log2_u32 351 : ℝ) / 2 ^ 27 - Real.logb 2 ((351 : ℕ) : ℝ)| ≤ 1 / 2 ^ 27 := by
  have hy : log2_u32 351 = 1134854808 := by decide!
  have hc : ((1134854808 + 1 : ℕ) : ℝ) < 2 ^ 27 * Real.logb 2 ((351 : ℕ) : ℝ) :=
    lt_log_of_chain 64 27 351 (1134854808 + 1) (by norm_num) (by norm_num) (by decide!)
  rw [hy]
  intro h
  rw [abs_le] at h
  obtain ⟨h1, -⟩ := h
  push_cast at hc h1
  rw [le_sub_iff_add_le, le_div_iff₀ (by positivity)] at h1
  linarith

/-- C2 (amended): for every 32-bit `x` with `1 ≤ x ≤ 2 ^ 32 - 1` the result
`y = log2_u32 x` satisfies `|y / 2 ^ 27 - log2 x| < 2 ^ (-27) + 2 ^ (-30)`. -/
theorem C2_log2_u32_error (x : Nat) (h1 : 1 ≤ x) (h2 : x ≤ 2 ^ 32 - 1) :
    |(log2_u32 x : ℝ) / 2 ^ 27 - Real.logb 2 (x : ℝ)| < 1 / 2 ^ 27 + 1 / 2 ^ 30 := by
  obtain ⟨a, b⟩ := acc_u32_err 27 le_rfl x (by omega) (by omega)
  rw [abs_lt]
  unfold log2_u32
  constructor
  · rw [lt_sub_iff_add_lt, lt_div_iff₀ (by positivity)]
    linarith
  · rw [sub_lt_iff_lt_add, div_lt_iff₀ (by positivity)]
    linarith

/-- Witness for C2: the hypotheses hold at a concrete input. -/
theorem C2_witness :
    1 ≤ 351 ∧ 351 ≤ 2 ^ 32 - 1 ∧
      |(log2_u32 351 : ℝ) / 2 ^ 27 - Real.logb 2 ((351 : ℕ) : ℝ)| < 1 / 2 ^ 27 + 1 / 2 ^ 30 :=
  ⟨by decide, by decide, C2_log2_u32_error 351 (by decide) (by decide)⟩

/-- C3 (as stated, refuted): the signed result for `x = 13175617` is `24218`,
while `1024 * log2 13175617 > 24219`, so the error exceeds `2 ^ (-10)`. -/
theorem C3_counterexample :
    ¬ |((log2_i32 13175617 : ℤ) : ℝ) / 2 ^ 10 - Real.logb 2 ((13175617 : ℤ) : ℝ)|
        ≤ 1 / 2 ^ 10 := by
  have hy : log2_i32 13175617 = 24218 := by decide!
  have hc : ((24218 + 1 : ℕ) : ℝ) < 2 ^ 10 * Real.logb 2 ((13175617 : ℕ) : ℝ) :=
    lt_log_of_chain 64 10 13175617 (24218 + 1) (by norm_num) (by norm_num) (by decide!)
  rw [hy]
  intro h
  rw [abs_le] at h
  obtain ⟨h1, -⟩ := h
  push_cast at hc h1
  rw [le_sub_iff_add_le, le_div_iff₀ (by positivity)] at h1
  linarith

/-- C3 (amended): for every 32-bit signed `x` with `1 ≤ x ≤ 2 ^ 31 - 1` the
result `y = log2_i32 x` satisfies `|y / 1024 - log2 x| < 2 ^ (-10) + 2 ^ (-30)`. -/
theorem C3_log2_i32_error (x : Int) (h1 : 1 ≤ x) (h2 : x ≤ 2 ^ 31 - 1) :
    |((log2_i32 x : ℤ) : ℝ) / 2 ^ 10 - Real.logb 2 ((x : ℤ) : ℝ)|
      < 1 / 2 ^ 10 + 1 / 2 ^ 30 := by
  obtain ⟨a, b⟩ := acc_u32_err 10 (by norm_num) x.toNat (by omega) (by omega)
  rw [log2_i32_nonneg x (by omega) (by omega)]
  have ex : ((x.toNat : ℕ) : ℝ) = ((x : ℤ) : ℝ) := by
    have : ((x.toNat : ℕ) : ℤ) = x := Int.toNat_of_nonneg (by omega)
    exact_mod_cast this
  rw [ex] at a b
  rw [abs_lt]
  push_cast
  constructor
  · rw [lt_sub_iff_add_lt, lt_div_iff₀ (by positivity)]
    linarith
  · rw [sub_lt_iff_lt_add, div_lt_iff₀ (by positivity)]
    linarith

/-- Witness for C3: the hypotheses hold at a concrete input. -/
theorem C3_witness :
    (1 : Int) ≤ 13175617 ∧ (13175617 : Int) ≤ 2 ^ 31 - 1 ∧
      |((log2_i32 13175617 : ℤ) : ℝ) / 2 ^ 10 - Real.logb 2 ((13175617 : ℤ) : ℝ)|
        < 1 / 2 ^ 10 + 1 / 2 ^ 30 :=
  ⟨by decide, by decide, C3_log2_i32_error 13175617 (by decide) (by decide)⟩

/-! ## Order, exact values and signs -/

/-- C4: each of the three functions is monotone on the positive inputs of its
input type: `x1 < x2` implies `f x1 ≤ f x2`. -/
theorem C4_monotone :
    (∀ x1 x2 : Nat, 0 < x1 → x1 < x2 → x2 < 2 ^ 16 → log2_u16 x1 ≤ log2_u16 x2) ∧
    (∀ x1 x2 : Nat, 0 < x1 → x1 < x2 → x2 < 2 ^ 32 → log2_u32 x1 ≤ log2_u32 x2) ∧
    (∀ x1 x2 : Int, 0 < x1 → x1 < x2 → x2 < 2 ^ 31 → log2_i32 x1 ≤ log2_i32 x2) := by
  refine ⟨?_, ?_, ?_⟩
  · intro x1 x2 h0 h hx
    unfold log2_u16
    exact acc_u16_mono 12 x1 x2 le_rfl h0 (by omega) hx
  · intro x1 x2 h0 h hx
    unfold log2_u32
    exact acc_u32_mono 27 x1 x2 le_rfl h0 (by omega) hx
  · intro x1 x2 h0 h hx
    rw [log2_i32_nonneg x1 (by omega) (by omega), log2_i32_nonneg x2 (by omega) hx]
    have := acc_u32_mono 10 x1.toNat x2.toNat (by norm_num) (by omega) (by omega) (by omega)
    exact_mod_cast this

/-- Witness for C4: the hypotheses hold at a concrete input. -/
theorem C4_witness :
    log2_u16 3 ≤ log2_u16 5 ∧ log2_u32 3 ≤ log2_u32 5 ∧ log2_i32 3 ≤ log2_i32 5 :=
  ⟨C4_monotone.1 3 5 (by decide) (by decide) (by decide),
    C4_monotone.2.1 3 5 (by decide) (by decide) (by decide),
    C4_monotone.2.2 3 5 (by decide) (by decide) (by decide)⟩

/-- C5: on every power of two of the input type the result is exactly
`k * 2 ^ F`, with `F = 12`, `27`, `10`; in particular `log2_u16 1 = 0`,
`log2_u16 2 = 4096`, `log2_u16 4 = 8192`, `log2_u32 1 = 0` and
`log2_u32 2 = 134217728`. -/
theorem C5_power_of_two_exact :
    (∀ k : Nat, k ≤ 15 → log2_u16 (2 ^ k) = k * 2 ^ 12) ∧
    (∀ k : Nat, k ≤ 31 → log2_u32 (2 ^ k) = k * 2 ^ 27) ∧
    (∀ k : Nat, k ≤ 30 → log2_i32 (2 ^ k) = (k : Int) * 2 ^ 10) ∧
    log2_u16 1 = 0 ∧ log2_u16 2 = 4096 ∧ log2_u16 4 = 8192 ∧
    log2_u32 1 = 0 ∧ log2_u32 2 = 134217728 := by
  decide!

/-- Witness for C5: the hypotheses hold at a concrete input. -/
theorem C5_witness :
    log2_u16 (2 ^ 3) = 3 * 2 ^ 12 ∧ log2_u32 (2 ^ 3) = 3 * 2 ^ 27 ∧
      log2_i32 (2 ^ 3) = ((3 : Nat) : Int) * 2 ^ 10 :=
  ⟨C5_power_of_two_exact.1 3 (by decide), C5_power_of_two_exact.2.1 3 (by decide),
    C5_power_of_two_exact.2.2.1 3 (by decide)⟩

/-- C6 (as stated, refuted): `x = -2 ^ 31` is a nonzero 32-bit signed input
whose negation in `int32_t` is `-2 ^ 31` again, and
`log2_i32 (-2 ^ 31) = -31744` is not the opposite of itself. -/
theorem C6_counterexample :
    (-2 ^ 31 : Int) ≠ 0 ∧ toI32 (-(-2 ^ 31)) = -2 ^ 31 ∧
      log2_i32 (toI32 (-(-2 ^ 31))) ≠ -log2_i32 (-2 ^ 31) := by
  decide!

/-- C6 (amended): for every nonzero `x` with `-2 ^ 31 < x < 2 ^ 31`, that is
every nonzero 32-bit signed input except `-2 ^ 31`,
`log2_i32 (-x) = -log2_i32 x`. -/
theorem C6_sign_symmetry (x : Int) (h0 : x ≠ 0) (hlo : -2 ^ 31 < x) (hhi : x < 2 ^ 31) :
    log2_i32 (toI32 (-x)) = -log2_i32 x := by
  have e : toI32 (-x) = -x := by
    unfold toI32
    omega
  rw [e]
  rcases lt_or_gt_of_ne h0 with h | h
  · rw [log2_i32_neg x h (by omega), log2_i32_nonneg (-x) (by omega) (by omega)]
    simp
  · rw [log2_i32_nonneg x (by omega) hhi, log2_i32_neg (-x) (by omega) (by omega)]
    simp

/-- Witness for C6: the hypotheses hold at a concrete input. -/
theorem C6_witness :
    (4 : Int) ≠ 0 ∧ (-2 ^ 31 : Int) < 4 ∧ (4 : Int) < 2 ^ 31 ∧
      log2_i32 (toI32 (-4)) = -log2_i32 4 :=
  ⟨by decide, by decide, by decide, C6_sign_symmetry 4 (by decide) (by decide) (by decide)⟩

/-- C7 (as stated, refuted): `log2_i32 4` is not `4096`. -/
theorem C7_counterexample : ¬ (log2_i32 4 = 4096 ∧ log2_i32 (-4) = -4096) := by
  decide!

/-- C7 (amended): `log2_i32 4 = 2048` (that is `2 * 2 ^ 10`) and
`log2_i32 (-4) = -2048`. -/
theorem C7_concrete_signed : log2_i32 4 = 2048 ∧ log2_i32 (-4) = -2048 := by
  decide!

/-- C8: on input `0` each of the three functions returns `0`. -/
theorem C8_silent_zero : log2_u16 0 = 0 ∧ log2_u32 0 = 0 ∧ log2_i32 0 = 0 := by
  decide!

/-- C9: for every positive input the bit scan yields the `k` with
`2 ^ k ≤ x < 2 ^ (k + 1)`, and the result shifted right by `F` is that `k`. -/
theorem C9_integer_part :
    (∀ x : Nat, 0 < x → x < 2 ^ 16 →
      2 ^ scan_u16 x ≤ x ∧ x < 2 ^ (scan_u16 x + 1) ∧ log2_u16 x >>> 12 = scan_u16 x) ∧
    (∀ x : Nat, 0 < x → x < 2 ^ 32 →
      2 ^ scan_u32 x ≤ x ∧ x < 2 ^ (scan_u32 x + 1) ∧ log2_u32 x >>> 27 = scan_u32 x) ∧
    (∀ x : Int, 0 < x → x < 2 ^ 31 →
      (2 : Int) ^ scan_u32 (abs_i32 x) ≤ x ∧ x < 2 ^ (scan_u32 (abs_i32 x) + 1) ∧
        log2_i32 x >>> (10 : Nat) = (scan_u32 (abs_i32 x) : Int)) := by
  refine ⟨?_, ?_, ?_⟩
  · intro x h0 hx
    obtain ⟨a, b, -⟩ := scan_u16_spec x h0 hx
    refine ⟨a, b, ?_⟩
    rw [Nat.shiftRight_eq_div_pow]
    unfold log2_u16
    exact acc_u16_div 12 x h0 hx le_rfl
  · intro x h0 hx
    obtain ⟨a, b, -⟩ := scan_u32_spec x h0 hx
    refine ⟨a, b, ?_⟩
    rw [Nat.shiftRight_eq_div_pow]
    unfold log2_u32
    exact acc_u32_div 27 x h0 hx le_rfl
  · intro x h0 hx
    have hn : ((x.toNat : Nat) : Int) = x := Int.toNat_of_nonneg (by omega)
    obtain ⟨a, b, -⟩ := scan_u32_spec x.toNat (by omega) (by omega)
    rw [abs_i32_nonneg x (by omega) hx, log2_i32_nonneg x (by omega) hx]
    refine ⟨?_, ?_, ?_⟩
    · have : ((2 ^ scan_u32 x.toNat : Nat) : Int) ≤ (x.toNat : Int) := by exact_mod_cast a
      rw [hn] at this
      exact_mod_cast this
    · have : ((x.toNat : Nat) : Int) < ((2 ^ (scan_u32 x.toNat + 1) : Nat) : Int) := by
        exact_mod_cast b
      rw [hn] at this
      exact_mod_cast this
    · rw [Int.shiftRight_eq_div_pow]
      have := acc_u32_div 10 x.toNat (by omega) (by omega) (by norm_num)
      exact_mod_cast this

/-- Witness for C9: the hypotheses hold at a concrete input. -/
theorem C9_witness :
    (2 ^ scan_u16 13 ≤ 13 ∧ 13 < 2 ^ (scan_u16 13 + 1) ∧ log2_u16 13 >>> 12 = scan_u16 13) ∧
    (2 ^ scan_u32 351 ≤ 351 ∧ 351 < 2 ^ (scan_u32 351 + 1) ∧
      log2_u32 351 >>> 27 = scan_u32 351) ∧
    ((2 : Int) ^ scan_u32 (abs_i32 5) ≤ 5 ∧ (5 : Int) < 2 ^ (scan_u32 (abs_i32 5) + 1) ∧
      log2_i32 5 >>> (10 : Nat) = (scan_u32 (abs_i32 5) : Int)) :=
  ⟨C9_integer_part.1 13 (by decide) (by decide),
    C9_integer_part.2.1 351 (by decide) (by decide),
    C9_integer_part.2.2 5 (by decide) (by decide)⟩

/-- Away from `-2 ^ 31` the negation of line 99 does not overflow, and the
strict functions have the values of `abs_i32` and `log2_i32`. -/
theorem strict_eq (x : Int) (hlo : -2 ^ 31 < x) (hhi : x < 2 ^ 31) :
    abs_i32_strict x = some (abs_i32 x) ∧ log2_i32_strict x = some (log2_i32 x) := by
  have h1 : abs_i32_strict x = some (abs_i32 x) := by
    unfold abs_i32_strict abs_i32 neg_i32 toI32
    by_cases h : x < 0
    · rw [if_pos h, if_pos h, if_pos ⟨by omega, by omega⟩]
      simp only [Option.map_some']
      congr 2
      omega
    · rw [if_neg h, if_neg h]
      congr 2
      omega
  refine ⟨h1, ?_⟩
  unfold log2_i32_strict log2_i32
  rw [h1]
  rfl

/-- At `-2 ^ 31` the negation of line 99 overflows: the source defines no
magnitude and no result. -/
theorem strict_min :
    neg_i32 (-2 ^ 31) = none ∧ abs_i32_strict (-2 ^ 31) = none ∧
      log2_i32_strict (-2 ^ 31) = none := by
  decide

/-- C10 (as stated, refuted): `-1` is negative but `log2_i32 (-1) = 0` is not. -/
theorem C10_counterexample : ¬ (log2_i32 (-1) < 0 ↔ (-1 : Int) < 0) := by
  decide!

/-- C10 (amended): for every 32-bit signed `x` other than `-2 ^ 31` (where the
negation of line 99 overflows), `log2_i32 x` is never of the sign opposite to
`x`: it is `≥ 0` for `x ≥ 0`, `≤ 0` for `x < 0`, and it is negative exactly
when `x < -1`; on these inputs `log2_i32_strict` has this very value. -/
theorem C10_sign (x : Int) (hlo : -2 ^ 31 < x) (hhi : x < 2 ^ 31) :
    log2_i32_strict x = some (log2_i32 x) ∧
      (0 ≤ x → 0 ≤ log2_i32 x) ∧ (x < 0 → log2_i32 x ≤ 0) ∧ (log2_i32 x < 0 ↔ x < -1) := by
  refine ⟨(strict_eq x hlo hhi).2, ?_⟩
  rcases lt_or_le x 0 with h | h
  · rw [log2_i32_neg x h (by omega)]
    refine ⟨fun h' => by omega, fun _ => by omega, ?_⟩
    have hpos : 0 < (-x).toNat := by omega
    have hlt : (-x).toNat < 2 ^ 32 := by omega
    obtain ⟨a, b, -⟩ := scan_u32_spec (-x).toNat hpos hlt
    obtain ⟨c, d⟩ := acc_u32_bounds 10 (-x).toNat hpos hlt (by norm_num)
    constructor
    · intro hneg
      by_contra hx
      have h1 : (-x).toNat = 1 := by omega
      rw [h1] at hneg
      have : acc_u32 10 1 = 0 := by decide!
      rw [this] at hneg
      simp at hneg
    · intro hx
      have h2 : 2 ≤ (-x).toNat := by omega
      have hk : 1 ≤ scan_u32 (-x).toNat := by
        by_contra hc
        have h0 : scan_u32 (-x).toNat = 0 := by omega
        rw [h0] at b
        omega
      have : 1 * 2 ^ 10 ≤ scan_u32 (-x).toNat * 2 ^ 10 := Nat.mul_le_mul_right _ hk
      omega
  · rw [log2_i32_nonneg x h hhi]
    exact ⟨fun _ => by omega, fun h' => by omega, by omega⟩

/-- Witness for C10: the hypotheses hold at a concrete input. -/
theorem C10_witness :
    (-2 ^ 31 : Int) < -5 ∧ (-5 : Int) < 2 ^ 31 ∧
      log2_i32_strict (-5) = some (log2_i32 (-5)) ∧
      ((0 : Int) ≤ -5 → 0 ≤ log2_i32 (-5)) ∧ ((-5 : Int) < 0 → log2_i32 (-5) ≤ 0) ∧
      (log2_i32 (-5) < 0 ↔ (-5 : Int) < -1) :=
  ⟨by decide, by decide, C10_sign (-5) (by decide) (by decide)⟩

/-! ## The squaring step and the mantissa -/

theorem step_u16_xp (s : Nat × Nat) :
    step_u16 s = if negI32 (xp_u16 s.1) then
      (toU16 (xp_u16 s.1 >>> 16), toU16 (toU16 (s.2 <<< 1) + 1))
    else (toU16 (xp_u16 s.1 >>> 15), toU16 (s.2 <<< 1)) := rfl

theorem step_u32_xp (s : Nat × Nat) :
    step_u32 s = if negI64 (xp_u32 s.1) then
      (toU32 (xp_u32 s.1 >>> 32), toU32 (toU32 (s.2 <<< 1) + 1))
    else (toU32 (xp_u32 s.1 >>> 31), toU32 (s.2 <<< 1)) := rfl

theorem xp_u16_eq (m : Nat) (hm : m < 2 ^ 16) :
    m * m + 0x4000 < 2 ^ 32 ∧ xp_u16 m = m * m + 0x4000 := by
  have hp : m * m + 0x4000 < 2 ^ 32 := by
    have := Nat.mul_le_mul (show m ≤ 2 ^ 16 - 1 by omega) (show m ≤ 2 ^ 16 - 1 by omega)
    omega
  have r1 : m % 2 ^ 32 = m := Nat.mod_eq_of_lt (by omega)
  have r2 : (m * m + 16384) % 2 ^ 32 = m * m + 16384 := Nat.mod_eq_of_lt hp
  refine ⟨hp, ?_⟩
  unfold xp_u16
  simp only [toU32, r1, r2]

theorem xp_u32_eq (m : Nat) (hm : m < 2 ^ 32) :
    m * m + 0x40000000 < 2 ^ 64 ∧ xp_u32 m = m * m + 0x40000000 := by
  have hp : m * m + 0x40000000 < 2 ^ 64 := by
    have := Nat.mul_le_mul (show m ≤ 2 ^ 32 - 1 by omega) (show m ≤ 2 ^ 32 - 1 by omega)
    omega
  have r1 : m % 2 ^ 64 = m := Nat.mod_eq_of_lt (by omega)
  have r2 : (m * m + 1073741824) % 2 ^ 64 = m * m + 1073741824 := Nat.mod_eq_of_lt hp
  refine ⟨hp, ?_⟩
  unfold xp_u32
  simp only [toU64, r1, r2]

/-- Between `2 ^ 31 - 2 ^ 14` and `2 ^ 31` there is no square of a 16-bit
mantissa, so the sign test on `xp` is the test `2 ^ 31 ≤ m * m`. -/
theorem bit_u16 (m : Nat) (hm : m < 2 ^ 16) :
    negI32 (xp_u16 m) = decide (2 ^ 31 ≤ m * m) := by
  obtain ⟨hp, he⟩ := xp_u16_eq m hm
  have r : (m * m + 16384) % 2 ^ 32 = m * m + 16384 := Nat.mod_eq_of_lt hp
  unfold negI32
  rw [he]
  simp only [toU32, r]
  rcases Nat.lt_or_ge m 46341 with h | h
  · have := Nat.mul_le_mul (show m ≤ 46340 by omega) (show m ≤ 46340 by omega)
    have h1 : ¬ 2 ^ 31 ≤ m * m + 16384 := by omega
    have h2 : ¬ 2 ^ 31 ≤ m * m := by omega
    simp only [h1, h2]
  · have := Nat.mul_le_mul h h
    have h1 : 2 ^ 31 ≤ m * m + 16384 := by omega
    have h2 : 2 ^ 31 ≤ m * m := by omega
    simp only [h1, h2]

theorem bit_u32 (m : Nat) (hm : m < 2 ^ 32) :
    negI64 (xp_u32 m) = decide (2 ^ 63 ≤ m * m) := by
  obtain ⟨hp, he⟩ := xp_u32_eq m hm
  have r : (m * m + 1073741824) % 2 ^ 64 = m * m + 1073741824 := Nat.mod_eq_of_lt hp
  unfold negI64
  rw [he]
  simp only [toU64, r]
  rcases Nat.lt_or_ge m 3037000500 with h | h
  · have := Nat.mul_le_mul (show m ≤ 3037000499 by omega) (show m ≤ 3037000499 by omega)
    have h1 : ¬ 2 ^ 63 ≤ m * m + 1073741824 := by omega
    have h2 : ¬ 2 ^ 63 ≤ m * m := by omega
    simp only [h1, h2]
  · have := Nat.mul_le_mul h h
    have h1 : 2 ^ 63 ≤ m * m + 1073741824 := by omega
    have h2 : 2 ^ 63 ≤ m * m := by omega
    simp only [h1, h2]

theorem run_u16_succ (n x : Nat) : run_u16 (n + 1) x = step_u16 (run_u16 n x) := by
  unfold run_u16
  simp only [Function.iterate_succ_apply']

theorem run_u32_succ (n x : Nat) : run_u32 (n + 1) x = step_u32 (run_u32 n x) := by
  unfold run_u32
  simp only [Function.iterate_succ_apply']

theorem run_u16_fst (n x : Nat) (h0 : 0 < x) (hx : x < 2 ^ 16) (hn : n ≤ 12) :
    2 ^ 15 ≤ (run_u16 n x).1 ∧ (run_u16 n x).1 < 2 ^ 16 := by
  obtain ⟨hlo, hhi, hk⟩ := scan_u16_spec x h0 hx
  obtain ⟨b1, b2⟩ := norm_bounds 15 (scan_u16 x) x hk hlo hhi
  rw [run_u16_eq n x h0 hx hn]
  have h := iter_fst (2 ^ 15) n (x * 2 ^ (15 - scan_u16 x), scan_u16 x) (by norm_num) b1
    (by omega)
  omega

theorem run_u32_fst (n x : Nat) (h0 : 0 < x) (hx : x < 2 ^ 32) (hn : n ≤ 27) :
    2 ^ 31 ≤ (run_u32 n x).1 ∧ (run_u32 n x).1 < 2 ^ 32 := by
  obtain ⟨hlo, hhi, hk⟩ := scan_u32_spec x h0 hx
  obtain ⟨b1, b2⟩ := norm_bounds 31 (scan_u32 x) x hk hlo hhi
  rw [run_u32_eq n x h0 hx hn]
  have h := iter_fst (2 ^ 31) n (x * 2 ^ (31 - scan_u32 x), scan_u32 x) (by norm_num) b1
    (by omega)
  omega

theorem abs_i32_pos (x : Int) (h0 : x ≠ 0) (hlo : -2 ^ 31 ≤ x) (hhi : x < 2 ^ 31) :
    0 < abs_i32 x := by
  rcases lt_or_gt_of_ne h0 with h | h
  · rw [abs_i32_neg x h hlo]; omega
  · rw [abs_i32_nonneg x (by omega) hhi]; omega

/-! ## Mantissa invariant, bit decision and offset -/

/-- C11: for every positive input (every nonzero one in the signed function)
the mantissa after the normalising shift (`n = 0`) and after every iteration of
the loop lies in `[2 ^ (W - 1), 2 ^ W)`: `W = 16` in `log2_u16`, `W = 32` in
`log2_u32` and `log2_i32`. -/
theorem C11_mantissa_normalised :
    (∀ x n : Nat, 0 < x → x < 2 ^ 16 → n ≤ 12 →
      0x8000 ≤ (run_u16 n x).1 ∧ (run_u16 n x).1 ≤ 0xFFFF) ∧
    (∀ x n : Nat, 0 < x → x < 2 ^ 32 → n ≤ 27 →
      0x80000000 ≤ (run_u32 n x).1 ∧ (run_u32 n x).1 ≤ 0xFFFFFFFF) ∧
    (∀ (x : Int) (n : Nat), x ≠ 0 → -2 ^ 31 ≤ x → x < 2 ^ 31 → n ≤ 10 →
      0x80000000 ≤ (run_u32 n (abs_i32 x)).1 ∧ (run_u32 n (abs_i32 x)).1 ≤ 0xFFFFFFFF) := by
  refine ⟨?_, ?_, ?_⟩
  · intro x n h0 hx hn
    have h := run_u16_fst n x h0 hx hn
    omega
  · intro x n h0 hx hn
    have h := run_u32_fst n x h0 hx hn
    omega
  · intro x n h0 hlo hhi hn
    have h := run_u32_fst n (abs_i32 x) (abs_i32_pos x h0 hlo hhi) (abs_i32_lt x hlo hhi)
      (by omega)
    omega

/-- Witness for C11: the hypotheses hold at concrete inputs. -/
theorem C11_witness :
    (0x8000 ≤ (run_u16 3 13).1 ∧ (run_u16 3 13).1 ≤ 0xFFFF) ∧
    (0x80000000 ≤ (run_u32 3 351).1 ∧ (run_u32 3 351).1 ≤ 0xFFFFFFFF) ∧
    (0x80000000 ≤ (run_u32 3 (abs_i32 (-5))).1 ∧
      (run_u32 3 (abs_i32 (-5))).1 ≤ 0xFFFFFFFF) :=
  ⟨C11_mantissa_normalised.1 13 3 (by decide) (by decide) (by decide),
    C11_mantissa_normalised.2.1 351 3 (by decide) (by decide) (by decide),
    C11_mantissa_normalised.2.2 (-5) 3 (by decide) (by decide) (by decide) (by decide)⟩

/-- C12: for every normalised mantissa `m` the bit appended to `y` by one
iteration is `1` exactly when `m * m ≥ 2 ^ (2 * W - 1)`, the added offset
never changing the decision; and this is what every iteration of the loops of
the three functions does. -/
theorem C12_bit_decision :
    (∀ m y : Nat, 2 ^ 15 ≤ m → m < 2 ^ 16 → y < 2 ^ 15 →
      (step_u16 (m, y)).2 = 2 * y + (if 2 ^ 31 ≤ m * m then 1 else 0)) ∧
    (∀ m y : Nat, 2 ^ 31 ≤ m → m < 2 ^ 32 → y < 2 ^ 31 →
      (step_u32 (m, y)).2 = 2 * y + (if 2 ^ 63 ≤ m * m then 1 else 0)) ∧
    (∀ x n : Nat, 0 < x → x < 2 ^ 16 → n < 12 →
      acc_u16 (n + 1) x = 2 * acc_u16 n x +
        (if 2 ^ 31 ≤ (run_u16 n x).1 * (run_u16 n x).1 then 1 else 0)) ∧
    (∀ x n : Nat, 0 < x → x < 2 ^ 32 → n < 27 →
      acc_u32 (n + 1) x = 2 * acc_u32 n x +
        (if 2 ^ 63 ≤ (run_u32 n x).1 * (run_u32 n x).1 then 1 else 0)) := by
  have s16 : ∀ m y : Nat, 2 ^ 15 ≤ m → m < 2 ^ 16 → y < 2 ^ 15 →
      (step_u16 (m, y)).2 = 2 * y + (if 2 ^ 31 ≤ m * m then 1 else 0) := by
    intro m y _ h2 hy
    rw [step_u16_xp, bit_u16 m h2]
    simp only [toU16, Nat.shiftLeft_eq, decide_eq_true_eq]
    by_cases hc : 2 ^ 31 ≤ m * m
    · rw [if_pos hc, if_pos hc]
      simp only
      omega
    · rw [if_neg hc, if_neg hc]
      simp only
      omega
  have s32 : ∀ m y : Nat, 2 ^ 31 ≤ m → m < 2 ^ 32 → y < 2 ^ 31 →
      (step_u32 (m, y)).2 = 2 * y + (if 2 ^ 63 ≤ m * m then 1 else 0) := by
    intro m y _ h2 hy
    rw [step_u32_xp, bit_u32 m h2]
    simp only [toU32, Nat.shiftLeft_eq, decide_eq_true_eq]
    by_cases hc : 2 ^ 63 ≤ m * m
    · rw [if_pos hc, if_pos hc]
      simp only
      omega
    · rw [if_neg hc, if_neg hc]
      simp only
      omega
  refine ⟨s16, s32, ?_, ?_⟩
  · intro x n h0 hx hn
    obtain ⟨f1, f2⟩ := run_u16_fst n x h0 hx (by omega)
    have hb := (acc_u16_bounds n x h0 hx (by omega)).2
    have hk := (scan_u16_spec x h0 hx).2.2
    have hy : acc_u16 n x < 2 ^ 15 := by
      have h1 : (scan_u16 x + 1) * 2 ^ n ≤ 16 * 2 ^ 11 :=
        Nat.mul_le_mul (by omega) (Nat.pow_le_pow_right (by norm_num) (by omega))
      omega
    have e : acc_u16 (n + 1) x = (step_u16 ((run_u16 n x).1, acc_u16 n x)).2 := by
      unfold acc_u16
      rw [run_u16_succ]
    rw [e]
    exact s16 _ _ f1 f2 hy
  · intro x n h0 hx hn
    obtain ⟨f1, f2⟩ := run_u32_fst n x h0 hx (by omega)
    have hb := (acc_u32_bounds n x h0 hx (by omega)).2
    have hk := (scan_u32_spec x h0 hx).2.2
    have hy : acc_u32 n x < 2 ^ 31 := by
      have h1 : (scan_u32 x + 1) * 2 ^ n ≤ 32 * 2 ^ 26 :=
        Nat.mul_le_mul (by omega) (Nat.pow_le_pow_right (by norm_num) (by omega))
      omega
    have e : acc_u32 (n + 1) x = (step_u32 ((run_u32 n x).1, acc_u32 n x)).2 := by
      unfold acc_u32
      rw [run_u32_succ]
    rw [e]
    exact s32 _ _ f1 f2 hy

/-- Witness for C12: the hypotheses hold at concrete inputs. -/
theorem C12_witness :
    (step_u16 (46341, 5)).2 = 2 * 5 + (if 2 ^ 31 ≤ 46341 * 46341 then 1 else 0) ∧
    (step_u32 (3037000499, 5)).2
      = 2 * 5 + (if 2 ^ 63 ≤ 3037000499 * 3037000499 then 1 else 0) ∧
    acc_u16 (3 + 1) 13 = 2 * acc_u16 3 13 +
      (if 2 ^ 31 ≤ (run_u16 3 13).1 * (run_u16 3 13).1 then 1 else 0) ∧
    acc_u32 (3 + 1) 351 = 2 * acc_u32 3 351 +
      (if 2 ^ 63 ≤ (run_u32 3 351).1 * (run_u32 3 351).1 then 1 else 0) :=
  ⟨C12_bit_decision.1 46341 5 (by decide) (by decide) (by decide),
    C12_bit_decision.2.1 3037000499 5 (by decide) (by decide) (by decide),
    C12_bit_decision.2.2.1 13 3 (by decide) (by decide) (by decide),
    C12_bit_decision.2.2.2 351 3 (by decide) (by decide) (by decide)⟩

/-- C13 (as stated, refuted): on the mantissa `2 ^ (W - 1)` one iteration is
not the test and shift of the square plus `2 ^ (2 * W - 2)`, neither in the
16-bit loop (`W = 16`) nor in the 32-bit loop (`W = 32`). -/
theorem C13_counterexample :
    step_u16 (2 ^ 15, 0) ≠
        (if 2 ^ 31 ≤ 2 ^ 15 * 2 ^ 15 + 2 ^ (2 * 16 - 2) then
          ((2 ^ 15 * 2 ^ 15 + 2 ^ (2 * 16 - 2)) >>> 16, 2 * 0 + 1)
        else ((2 ^ 15 * 2 ^ 15 + 2 ^ (2 * 16 - 2)) >>> 15, 2 * 0)) ∧
      step_u32 (2 ^ 31, 0) ≠
        (if 2 ^ 63 ≤ 2 ^ 31 * 2 ^ 31 + 2 ^ (2 * 32 - 2) then
          ((2 ^ 31 * 2 ^ 31 + 2 ^ (2 * 32 - 2)) >>> 32, 2 * 0 + 1)
        else ((2 ^ 31 * 2 ^ 31 + 2 ^ (2 * 32 - 2)) >>> 31, 2 * 0)) := by
  decide

/-- C13 (amended): one iteration of the loop tests and shifts the squared
mantissa plus `2 ^ (W - 2)`, half of the unit `2 ^ (W - 1)` of the mantissa:
`2 ^ 14 = 0x4000` in `log2_u16` and `2 ^ 30 = 0x40000000` in `log2_u32` and
`log2_i32`. -/
theorem C13_offset_constant :
    (∀ m y : Nat, 2 ^ 15 ≤ m → m < 2 ^ 16 → y < 2 ^ 15 →
      step_u16 (m, y) =
        if 2 ^ 31 ≤ m * m + 2 ^ (16 - 2) then ((m * m + 2 ^ (16 - 2)) >>> 16, 2 * y + 1)
        else ((m * m + 2 ^ (16 - 2)) >>> 15, 2 * y)) ∧
    (∀ m y : Nat, 2 ^ 31 ≤ m → m < 2 ^ 32 → y < 2 ^ 31 →
      step_u32 (m, y) =
        if 2 ^ 63 ≤ m * m + 2 ^ (32 - 2) then ((m * m + 2 ^ (32 - 2)) >>> 32, 2 * y + 1)
        else ((m * m + 2 ^ (32 - 2)) >>> 31, 2 * y)) := by
  constructor
  · intro m y _ h2 hy
    rw [step_u16_eq m y h2 hy]
    unfold stepR
    simp only [Nat.shiftRight_eq_div_pow]
    have hp := (xp_u16_eq m h2).1
    generalize m * m = p at hp ⊢
    by_cases hc : 2 ^ 31 ≤ p + 2 ^ (16 - 2)
    · rw [if_pos hc, if_pos (by omega)]
      refine Prod.ext ?_ rfl
      simp only
      omega
    · rw [if_neg hc, if_neg (by omega)]
      refine Prod.ext ?_ rfl
      simp only
      omega
  · intro m y _ h2 hy
    rw [step_u32_eq m y h2 hy]
    unfold stepR
    simp only [Nat.shiftRight_eq_div_pow]
    have hp := (xp_u32_eq m h2).1
    generalize m * m = p at hp ⊢
    by_cases hc : 2 ^ 63 ≤ p + 2 ^ (32 - 2)
    · rw [if_pos hc, if_pos (by omega)]
      refine Prod.ext ?_ rfl
      simp only
      omega
    · rw [if_neg hc, if_neg (by omega)]
      refine Prod.ext ?_ rfl
      simp only
      omega

/-- Witness for C13: the hypotheses hold at concrete inputs. -/
theorem C13_witness :
    step_u16 (46341, 5) =
        (if 2 ^ 31 ≤ 46341 * 46341 + 2 ^ (16 - 2) then
          ((46341 * 46341 + 2 ^ (16 - 2)) >>> 16, 2 * 5 + 1)
        else ((46341 * 46341 + 2 ^ (16 - 2)) >>> 15, 2 * 5)) ∧
      step_u32 (3037000499, 5) =
        (if 2 ^ 63 ≤ 3037000499 * 3037000499 + 2 ^ (32 - 2) then
          ((3037000499 * 3037000499 + 2 ^ (32 - 2)) >>> 32, 2 * 5 + 1)
        else ((3037000499 * 3037000499 + 2 ^ (32 - 2)) >>> 31, 2 * 5)) :=
  ⟨C13_offset_constant.1 46341 5 (by decide) (by decide) (by decide),
    C13_offset_constant.2 3037000499 5 (by decide) (by decide) (by decide)⟩

/-- C17: for every mantissa of the working type the product plus the offset
fits the double-width word, so the word `xp` that the loop tests and shifts is
the exact integer `m * m + offset`. -/
theorem C17_no_wrap_around :
    (∀ m : Nat, m < 2 ^ 16 → m * m + 0x4000 < 2 ^ 32 ∧ xp_u16 m = m * m + 0x4000) ∧
    (∀ m : Nat, m < 2 ^ 32 →
      m * m + 0x40000000 < 2 ^ 64 ∧ xp_u32 m = m * m + 0x40000000) ∧
    (∀ s : Nat × Nat, step_u16 s = if negI32 (xp_u16 s.1) then
        (toU16 (xp_u16 s.1 >>> 16), toU16 (toU16 (s.2 <<< 1) + 1))
      else (toU16 (xp_u16 s.1 >>> 15), toU16 (s.2 <<< 1))) ∧
    (∀ s : Nat × Nat, step_u32 s = if negI64 (xp_u32 s.1) then
        (toU32 (xp_u32 s.1 >>> 32), toU32 (toU32 (s.2 <<< 1) + 1))
      else (toU32 (xp_u32 s.1 >>> 31), toU32 (s.2 <<< 1))) :=
  ⟨xp_u16_eq, xp_u32_eq, step_u16_xp, step_u32_xp⟩

/-- Witness for C17: the hypotheses hold at the largest mantissas. -/
theorem C17_witness :
    (0xFFFF * 0xFFFF + 0x4000 < 2 ^ 32 ∧ xp_u16 0xFFFF = 0xFFFF * 0xFFFF + 0x4000) ∧
    (0xFFFFFFFF * 0xFFFFFFFF + 0x40000000 < 2 ^ 64 ∧
      xp_u32 0xFFFFFFFF = 0xFFFFFFFF * 0xFFFFFFFF + 0x40000000) :=
  ⟨C17_no_wrap_around.1 0xFFFF (by decide), C17_no_wrap_around.2.1 0xFFFFFFFF (by decide)⟩

/-! ## Output range, truncation and doubling -/

/-- C14: for every 32-bit signed `x` other than `-2 ^ 31` the magnitude `y`
accumulated by the source is at most `32767` (integer part at most `31`) and
the conversion to `int16_t` loses nothing: the result is `y` for `x ≥ 0` and
`-y` for `x < 0`. At `x = -2 ^ 31` the negation of line 99 overflows
`int32_t`, and the source defines neither a magnitude nor a result. -/
theorem C14_magnitude_fits :
    (∀ x : Int, -2 ^ 31 < x → x < 2 ^ 31 →
      abs_i32_strict x = some (abs_i32 x) ∧
      acc_u32 10 (abs_i32 x) ≤ 32767 ∧ acc_u32 10 (abs_i32 x) / 2 ^ 10 ≤ 31 ∧
      (0 ≤ x → log2_i32_strict x = some (acc_u32 10 (abs_i32 x) : Int)) ∧
      (x < 0 → log2_i32_strict x = some (-(acc_u32 10 (abs_i32 x) : Int)))) ∧
    (neg_i32 (-2 ^ 31) = none ∧ abs_i32_strict (-2 ^ 31) = none ∧
      log2_i32_strict (-2 ^ 31) = none) := by
  refine ⟨?_, strict_min⟩
  intro x hlo hhi
  have hb := acc_u32_ten_lt (abs_i32 x) (abs_i32_lt x (by omega) hhi)
  obtain ⟨e1, e2⟩ := strict_eq x hlo hhi
  refine ⟨e1, by omega, by omega, ?_, ?_⟩
  · intro h
    rw [e2]
    congr 1
    unfold log2_i32
    simp only
    rw [if_neg (by omega)]
    unfold toI16
    omega
  · intro h
    rw [e2]
    congr 1
    unfold log2_i32
    simp only
    rw [if_pos h]
    unfold toI16 toU32
    omega

/-- Witness for C14: the hypotheses hold at the most negative input that the
source handles. -/
theorem C14_witness :
    (-2 ^ 31 : Int) < -2 ^ 31 + 1 ∧ (-2 ^ 31 + 1 : Int) < 2 ^ 31 ∧
      abs_i32_strict (-2 ^ 31 + 1) = some (abs_i32 (-2 ^ 31 + 1)) ∧
      acc_u32 10 (abs_i32 (-2 ^ 31 + 1)) ≤ 32767 ∧
      acc_u32 10 (abs_i32 (-2 ^ 31 + 1)) / 2 ^ 10 ≤ 31 ∧
      ((0 : Int) ≤ -2 ^ 31 + 1 →
        log2_i32_strict (-2 ^ 31 + 1) = some (acc_u32 10 (abs_i32 (-2 ^ 31 + 1)) : Int)) ∧
      ((-2 ^ 31 + 1 : Int) < 0 →
        log2_i32_strict (-2 ^ 31 + 1)
          = some (-(acc_u32 10 (abs_i32 (-2 ^ 31 + 1)) : Int))) :=
  ⟨by decide, by decide, C14_magnitude_fits.1 (-2 ^ 31 + 1) (by decide) (by decide)⟩

/-- Later iterations only append bits: dropping the last `k` bits of the
accumulator after `k + n` iterations gives the accumulator after `n`. -/
theorem acc_u32_trunc (n k N x : Nat) (hN : N = k + n) (h0 : 0 < x) (hx : x < 2 ^ 32)
    (hle : N ≤ 27) : acc_u32 N x / 2 ^ k = acc_u32 n x := by
  subst hN
  rw [acc_u32_eq (k + n) x h0 hx hle, acc_u32_eq n x h0 hx (by omega),
    Function.iterate_add_apply]
  exact iter_snd_div (2 ^ 31) k _

/-- C15: for every `x` with `1 ≤ x ≤ 2 ^ 31 - 1`, `log2_i32 x` is
`log2_u32 x` shifted right by `17`. -/
theorem C15_signed_is_truncation (x : Int) (h1 : 1 ≤ x) (h2 : x ≤ 2 ^ 31 - 1) :
    log2_i32 x = ((log2_u32 x.toNat >>> 17 : Nat) : Int) := by
  rw [log2_i32_nonneg x (by omega) (by omega), Nat.shiftRight_eq_div_pow]
  unfold log2_u32
  rw [acc_u32_trunc 10 17 27 x.toNat (by norm_num) (by omega) (by omega) le_rfl]

/-- Witness for C15: the hypotheses hold at a concrete input. -/
theorem C15_witness :
    (1 : Int) ≤ 351 ∧ (351 : Int) ≤ 2 ^ 31 - 1 ∧
      log2_i32 351 = ((log2_u32 (351 : Int).toNat >>> 17 : Nat) : Int) :=
  ⟨by decide, by decide, C15_signed_is_truncation 351 (by decide) (by decide)⟩

theorem stepR_shift (R m y d : Nat) :
    stepR R (m, y + d) = ((stepR R (m, y)).1, (stepR R (m, y)).2 + 2 * d) := by
  unfold stepR
  simp only
  split_ifs
  · refine Prod.ext rfl ?_
    simp only
    omega
  · refine Prod.ext rfl ?_
    simp only
    omega

theorem iter_shift (R n m y d : Nat) :
    (stepR R)^[n] (m, y + d)
      = (((stepR R)^[n] (m, y)).1, ((stepR R)^[n] (m, y)).2 + d * 2 ^ n) := by
  induction n with
  | zero => simp
  | succ n ih =>
    rw [Function.iterate_succ_apply', Function.iterate_succ_apply', ih, stepR_shift]
    refine Prod.ext rfl ?_
    simp only
    rw [pow_succ]
    ring

/-- The exponent found by the scan is unique. -/
theorem exp_unique (k j x : Nat) (l1 : 2 ^ k ≤ x) (u1 : x < 2 ^ (k + 1))
    (l2 : 2 ^ j ≤ x) (u2 : x < 2 ^ (j + 1)) : k = j := by
  by_contra hne
  rcases Nat.lt_or_gt_of_ne hne with h | h
  · have := Nat.pow_le_pow_right (n := 2) (by norm_num) (show k + 1 ≤ j by omega)
    omega
  · have := Nat.pow_le_pow_right (n := 2) (by norm_num) (show j + 1 ≤ k by omega)
    omega

theorem acc_u16_double (n x : Nat) (h0 : 0 < x) (hx : 2 * x < 2 ^ 16) (hn : n ≤ 12) :
    acc_u16 n (2 * x) = acc_u16 n x + 2 ^ n := by
  obtain ⟨l1, u1, k1⟩ := scan_u16_spec x h0 (by omega)
  obtain ⟨l2, u2, k2⟩ := scan_u16_spec (2 * x) (by omega) hx
  have hk : scan_u16 (2 * x) = scan_u16 x + 1 := by
    apply exp_unique _ _ (2 * x) l2 u2
    · rw [pow_succ]; omega
    · rw [pow_succ]; omega
  have hm : 2 * x * 2 ^ (15 - (scan_u16 x + 1)) = x * 2 ^ (15 - scan_u16 x) := by
    have e : 15 - scan_u16 x = (15 - (scan_u16 x + 1)) + 1 := by omega
    rw [e, pow_succ]
    ring
  rw [acc_u16_eq n (2 * x) (by omega) hx hn, acc_u16_eq n x h0 (by omega) hn, hk, hm,
    iter_shift]
  simp

theorem acc_u32_double (n x : Nat) (h0 : 0 < x) (hx : 2 * x < 2 ^ 32) (hn : n ≤ 27) :
    acc_u32 n (2 * x) = acc_u32 n x + 2 ^ n := by
  obtain ⟨l1, u1, k1⟩ := scan_u32_spec x h0 (by omega)
  obtain ⟨l2, u2, k2⟩ := scan_u32_spec (2 * x) (by omega) hx
  have hk : scan_u32 (2 * x) = scan_u32 x + 1 := by
    apply exp_unique _ _ (2 * x) l2 u2
    · rw [pow_succ]; omega
    · rw [pow_succ]; omega
  have hm : 2 * x * 2 ^ (31 - (scan_u32 x + 1)) = x * 2 ^ (31 - scan_u32 x) := by
    have e : 31 - scan_u32 x = (31 - (scan_u32 x + 1)) + 1 := by omega
    rw [e, pow_succ]
    ring
  rw [acc_u32_eq n (2 * x) (by omega) hx hn, acc_u32_eq n x h0 (by omega) hn, hk, hm,
    iter_shift]
  simp

/-- C16: doubling the input adds exactly `1.0`, that is `2 ^ F`, to the
result, for each of the three functions. -/
theorem C16_doubling :
    (∀ x : Nat, 1 ≤ x → x ≤ 32767 → log2_u16 (2 * x) = log2_u16 x + 4096) ∧
    (∀ x : Nat, 1 ≤ x → x ≤ 2 ^ 31 - 1 → log2_u32 (2 * x) = log2_u32 x + 2 ^ 27) ∧
    (∀ x : Int, 1 ≤ x → x ≤ 2 ^ 30 - 1 → log2_i32 (2 * x) = log2_i32 x + 1024) := by
  refine ⟨?_, ?_, ?_⟩
  · intro x h1 h2
    unfold log2_u16
    rw [acc_u16_double 12 x (by omega) (by omega) le_rfl]
    norm_num
  · intro x h1 h2
    unfold log2_u32
    rw [acc_u32_double 27 x (by omega) (by omega) le_rfl]
  · intro x h1 h2
    rw [log2_i32_nonneg (2 * x) (by omega) (by omega), log2_i32_nonneg x (by omega) (by omega)]
    have e : (2 * x).toNat = 2 * x.toNat := by omega
    rw [e, acc_u32_double 10 x.toNat (by omega) (by omega) (by norm_num)]
    push_cast
    norm_num

/-- Witness for C16: the hypotheses hold at concrete inputs. -/
theorem C16_witness :
    log2_u16 (2 * 13) = log2_u16 13 + 4096 ∧ log2_u32 (2 * 351) = log2_u32 351 + 2 ^ 27 ∧
      log2_i32 (2 * 5) = log2_i32 5 + 1024 :=
  ⟨C16_doubling.1 13 (by decide) (by decide), C16_doubling.2.1 351 (by decide) (by decide),
    C16_doubling.2.2 5 (by decide) (by decide)⟩

end Fixlog
